import Mathlib

/-!
Verification of the opfs-extended virtual filesystem layer.

Paths are modelled as lists of characters (`List Char`), mirroring the
JavaScript string functions of `src/path.ts` character by character:
`split('/')` becomes `List.splitOn '/'`, `filter(Boolean)` filters out empty
pieces, `join('/')` is `List.intercalate` with a slash, `lastIndexOf('/')`
and `slice` are modelled by an explicit index computation and `take`/`drop`.
-/

namespace OpfsExt

/-- A path segment: the characters between two slashes. -/
abbrev Seg : Type := List Char

/-- Model of the string produced by `path.split('/')` followed by
`.filter(Boolean)`: split a character list on slashes and drop the empty
pieces. -/
def segmentsOf (l : List Char) : List Seg :=
  (l.splitOn '/').filter (fun s => !s.isEmpty)

/-- The loop body of `normalizePath`: walk the segments, drop `.`, pop one
level on `..` (a no-op on an empty accumulator, as `Array.pop`), push any
other segment. -/
def normLoop : List Seg → List Seg → List Seg
  | [], acc => acc
  | seg :: rest, acc =>
    if seg = ['.'] then normLoop rest acc
    else if seg = ['.', '.'] then normLoop rest acc.dropLast
    else normLoop rest (acc ++ [seg])

/-- Reassemble segments into an absolute path: a leading slash followed by
the segments joined with slashes, as in the final line of `normalizePath`. -/
def renderPath (segs : List Seg) : List Char :=
  '/' :: List.intercalate ['/'] segs

/-- `normalizePath` from `src/path.ts`: split on slashes, drop empty and `.`
segments, pop one level on `..`, reassemble with a single leading slash. -/
def normalizePath (path : List Char) : List Char :=
  renderPath (normLoop (segmentsOf path) [])

/-- The loop of `resolvePath`: like the `normalizePath` loop, but `..` pops
only while the accumulator is strictly longer than the mount base's segment
list, so the result can never drop below the base. -/
def resolveLoop (baseLen : Nat) : List Seg → List Seg → List Seg
  | [], acc => acc
  | seg :: rest, acc =>
    if seg = ['.'] then resolveLoop baseLen rest acc
    else if seg = ['.', '.'] then
      resolveLoop baseLen rest (if baseLen < acc.length then acc.dropLast else acc)
    else resolveLoop baseLen rest (acc ++ [seg])

/-- `resolvePath` from `src/path.ts`: normalize the base, treat an absolute
user path as rooted at the base, walk the combined segments clamping `..`
at the base's segment count. -/
def resolvePath (mountBase userPath : List Char) : List Char :=
  let normalizedBase := normalizePath mountBase
  let combined :=
    if userPath.head? = some '/' then normalizedBase ++ userPath
    else normalizedBase ++ '/' :: userPath
  let baseSegments := segmentsOf normalizedBase
  let allSegments := segmentsOf combined
  renderPath (resolveLoop baseSegments.length allSegments [])

/-- Model of JavaScript `lastIndexOf('/')`: the index of the last slash, or
`-1` when there is none. -/
def lastSlashIdx : List Char → Int
  | [] => -1
  | c :: rest =>
    let r := lastSlashIdx rest
    if 0 ≤ r then r + 1 else if c = '/' then 0 else -1

/-- `parentPath` from `src/path.ts`: normalize, then cut at the last slash;
root-level paths give `/`. -/
def parentPath (path : List Char) : List Char :=
  let normalized := normalizePath path
  let lastSlash := lastSlashIdx normalized
  if lastSlash ≤ 0 then ['/'] else normalized.take lastSlash.toNat

/-- `basename` from `src/path.ts`: normalize, then take everything after the
last slash. -/
def basename (path : List Char) : List Char :=
  let normalized := normalizePath path
  let lastSlash := lastSlashIdx normalized
  normalized.drop (lastSlash + 1).toNat

/-- `joinPath` from `src/path.ts`: join the parts with slashes and
normalize. -/
def joinPath (parts : List (List Char)) : List Char :=
  normalizePath (List.intercalate ['/'] parts)

/-- The reserved sidecar filename `.meta`. -/
def metaFileName : List Char := ['.', 'm', 'e', 't', 'a']

/-- `isMetaFile` from `src/path.ts`. -/
def isMetaFile (name : List Char) : Bool :=
  name = metaFileName

/-- A segment is valid when it is nonempty and contains no slash — exactly
the pieces `split('/').filter(Boolean)` can produce. -/
def ValidSeg (s : Seg) : Prop := s ≠ [] ∧ '/' ∉ s

/-- A normalized segment additionally is not `.` or `..` — exactly what the
normalize/resolve loops ever push. -/
def NormalSeg (s : Seg) : Prop :=
  ValidSeg s ∧ s ≠ ['.'] ∧ s ≠ ['.', '.']

instance (s : Seg) : Decidable (ValidSeg s) := by
  unfold ValidSeg
  infer_instance

instance (s : Seg) : Decidable (NormalSeg s) := by
  unfold NormalSeg
  infer_instance

/-- The matching test of `Root.fireLocal` in `src/root.ts`: a subscriber
watching `watchedPath` is fired for events in `dirPath` when the paths are
equal, or when the watched path followed by a slash is a string prefix of
the event directory followed by a slash. -/
def fireMatch (watchedPath dirPath : List Char) : Bool :=
  if watchedPath = dirPath then true
  else
    let dirWithSlash := if dirPath = ['/'] then ['/'] else dirPath ++ ['/']
    let pfx := if watchedPath = ['/'] then ['/'] else watchedPath ++ ['/']
    List.isPrefixOf pfx dirWithSlash

/-- The set of subscriber ids fired by `fireLocal` for an event in directory
`D`, over a registry of subscribers keyed by the segment list of their
(normalized) watched path. -/
def fireLocalTargets (subscribers : List (List Seg × Nat)) (D : List Seg) : List Nat :=
  (subscribers.filter (fun pr => fireMatch (renderPath pr.1) (renderPath D))).map Prod.snd

/-- Helper for reasoning about the slash-terminated rendering used by
`fireLocal`: each segment followed by a slash, concatenated. -/
def flatSegs : List Seg → List Char
  | [] => []
  | s :: rest => s ++ '/' :: flatSegs rest

/-!
The filesystem model.

Names and byte contents: a backend entry name is a `List Char`; file
contents are byte lists (only lengths matter to the claims). The backend
tree is a `Node`: either a file with contents, or a directory carrying its
(optional) sidecar record and its named children. The sidecar `.meta` file
is represented structurally as the directory's `meta` field; backend
enumeration in the source skips the `.meta` name, which corresponds to the
sidecar not appearing among `children` here.
-/

/-- A backend entry name. -/
abbrev FsName : Type := List Char

/-- File contents as a list of bytes. -/
abbrev Bytes : Type := List Nat

/-- User-attached metadata: a flat map of string keys to string values (the
shape relevant to the claims); serialized size is modelled by `metaBytes`. -/
abbrev UserMeta : Type := List (String × String)

/-- Byte size of `JSON.stringify` for a flat string-to-string object with
ASCII contents and no escapes: two braces, five punctuation/quote bytes per
entry plus key and value lengths, and a comma between entries. -/
def metaBytes : UserMeta → Nat
  | [] => 2
  | l => 2 + (l.map (fun kv => kv.1.length + kv.2.length + 5)).sum + (l.length - 1)

/-- JavaScript object spread `\x7b...a, ...b\x7d`: keys of `a` keep their
position (their value replaced when `b` also has the key), new keys of `b`
follow. -/
def mergeMeta (a b : UserMeta) : UserMeta :=
  (a.map (fun kv =>
    match b.find? (fun kv2 => kv2.1 == kv.1) with
    | some kv2 => (kv.1, kv2.2)
    | none => kv)) ++
  b.filter (fun kv2 => !(a.any (fun kv => kv.1 == kv2.1)))

/-- Directory permission flags. -/
structure Permissions where
  read : Bool
  write : Bool
deriving DecidableEq, Repr

/-- Entry kind discriminator. -/
inductive EntryType : Type where
  | file
  | directory
deriving DecidableEq, Repr

/-- Metadata stored per child entry in a sidecar record (`ChildMeta` in
`types.ts`); `size` is present for files only. -/
structure ChildMeta where
  type : EntryType
  size : Option Nat
  ctime : Int
  mtime : Int
  meta : UserMeta
deriving DecidableEq, Repr

/-- Aggregate usage statistics (`UsageStats` in `types.ts`). -/
structure UsageStats where
  totalSize : Int
  fileCount : Int
  directoryCount : Int
deriving DecidableEq, Repr

/-- A sidecar record (`DirMeta` in `types.ts`); the `usage` block is present
only on the tree root's record. -/
structure DirMeta where
  permissions : Permissions
  children : List (FsName × ChildMeta)
  usage : Option UsageStats
deriving DecidableEq, Repr

/-- `defaultDirMeta` from `meta.ts`: read and write allowed, no children,
and no usage block. -/
def defaultDirMeta : DirMeta :=
  ⟨⟨true, true⟩, [], none⟩

mutual

/-- The backend tree: files with contents, directories with an optional
sidecar record and named children. -/
inductive Node : Type where
  | file (content : Bytes)
  | dir (meta : Option DirMeta) (children : Children)

/-- A directory's ordered children (a list of name/node pairs, as a
dedicated type so tree recursion stays structural). -/
inductive Children : Type where
  | nil
  | cons (name : FsName) (child : Node) (rest : Children)

end

/-- First-match association-list lookup (JavaScript object property read;
keys are unique in states produced by the library). -/
def alGet {β : Type} : List (FsName × β) → FsName → Option β
  | [], _ => none
  | (k, v) :: rest, key => if k = key then some v else alGet rest key

/-- Association-list insert-or-replace (JavaScript object property write:
an existing key keeps its position, a new key is appended). -/
def alSet {β : Type} : List (FsName × β) → FsName → β → List (FsName × β)
  | [], key, v => [(key, v)]
  | (k, w) :: rest, key, v =>
    if k = key then (k, v) :: rest else (k, w) :: alSet rest key v

/-- Association-list in-place modification of an existing key (no-op when
the key is absent). -/
def alModify {β : Type} : List (FsName × β) → FsName → (β → β) → List (FsName × β)
  | [], _, _ => []
  | (k, w) :: rest, key, f =>
    if k = key then (k, f w) :: rest else (k, w) :: alModify rest key f

/-- Association-list key deletion (JavaScript `delete obj[k]`). -/
def alRemove {β : Type} (l : List (FsName × β)) (key : FsName) : List (FsName × β) :=
  l.filter (fun kv => !(kv.1 = key : Bool))

/-- View a `Children` sequence as an association list. -/
def Children.toList : Children → List (FsName × Node)
  | .nil => []
  | .cons n c rest => (n, c) :: Children.toList rest

/-- Build a `Children` sequence from an association list. -/
def Children.ofList : List (FsName × Node) → Children
  | [] => .nil
  | (n, c) :: rest => .cons n c (Children.ofList rest)

/-- Insert-or-replace on `Children` (object property write semantics, as
`alSet`). -/
def Children.set : Children → FsName → Node → Children
  | .nil, key, v => .cons key v .nil
  | .cons n c rest, key, v =>
    if n = key then .cons n v rest else .cons n c (Children.set rest key v)

/-- In-place modification of an existing name on `Children` (no-op when
absent, as `alModify`). -/
def Children.modify : Children → FsName → (Node → Node) → Children
  | .nil, _, _ => .nil
  | .cons n c rest, key, f =>
    if n = key then .cons n (f c) rest else .cons n c (Children.modify rest key f)

/-- Deletion by name on `Children` (as `alRemove`). -/
def Children.del : Children → FsName → Children
  | .nil, _ => .nil
  | .cons n c rest, key =>
    if n = key then Children.del rest key else .cons n c (Children.del rest key)

/-- The sidecar record attached to a node (none for files). -/
def Node.metaOf : Node → Option DirMeta
  | .file _ => none
  | .dir m _ => m

/-- The children of a node as an association list (empty for files). -/
def Node.childrenOf : Node → List (FsName × Node)
  | .file _ => []
  | .dir _ cs => cs.toList

/-- Replace a directory node's sidecar record (identity on files). -/
def Node.withMeta (m : Option DirMeta) : Node → Node
  | .file c => .file c
  | .dir _ cs => .dir m cs

/-- Insert or replace one child of a directory node. -/
def Node.setChild (name : FsName) (c : Node) : Node → Node
  | .file b => .file b
  | .dir m cs => .dir m (cs.set name c)

/-- Remove one child of a directory node. -/
def Node.removeChild (name : FsName) : Node → Node
  | .file b => .file b
  | .dir m cs => .dir m (cs.del name)

/-- The effective record of a directory: `readMeta` returns the parsed
sidecar, or the default record when the sidecar is absent (or unparsable). -/
def effMeta (n : Node) : DirMeta :=
  (Node.metaOf n).getD defaultDirMeta

/-- Navigate a node along a segment list; descending into a file or a
missing name fails. -/
def getNode : Node → List FsName → Option Node
  | n, [] => some n
  | .dir _ cs, seg :: rest =>
    match alGet cs.toList seg with
    | some c => getNode c rest
    | none => none
  | .file _, _ :: _ => none

/-- `getDirHandle` (without create) from `mount.ts`: navigate per segment
with `getDirectoryHandle`, so the final node must also be a directory. -/
def getDirNode (s : Node) (segs : List FsName) : Option Node :=
  match getNode s segs with
  | some (.dir m cs) => some (.dir m cs)
  | _ => none

/-- Apply a function to the node at a path (unchanged when the path does
not lead to a node). -/
def updAt : Node → List FsName → (Node → Node) → Node
  | n, [], f => f n
  | .dir m cs, seg :: rest, f => .dir m (cs.modify seg (fun c => updAt c rest f))
  | .file c, _ :: _, _ => .file c

/-- A name the backend accepts for `getFileHandle`/`getDirectoryHandle`:
nonempty, not `.` or `..`, and without slashes. An invalid name makes the
backend throw. -/
def validName (n : FsName) : Bool :=
  decide (n ≠ [] ∧ n ≠ ['.'] ∧ n ≠ ['.', '.'] ∧ '/' ∉ n)

/-- `getFileHandle` at an absolute path followed by reading the contents:
navigate to the parent directory, then read the named child if it is a
file. -/
def getFileAt (s : Node) (abs : List Char) : Option Bytes :=
  match getDirNode s (segmentsOf (parentPath abs)) with
  | some d =>
    if validName (basename abs) then
      match alGet (Node.childrenOf d) (basename abs) with
      | some (.file b) => some b
      | _ => none
    else none
  | _ => none

/-- Clamp at zero, as `Math.max(0, x)`. -/
def clamp0 (x : Int) : Int := max 0 x

/-- `updateUsage` from `meta.ts`: add a signed delta to each cached counter
in the root record, clamping at zero; a root record without a usage block
is left untouched. -/
def applyUsage (s : Node) (dTotal dFiles dDirs : Int) : Node :=
  match (effMeta s).usage with
  | none => s
  | some u =>
    let u2 : UsageStats :=
      ⟨clamp0 (u.totalSize + dTotal), clamp0 (u.fileCount + dFiles),
        clamp0 (u.directoryCount + dDirs)⟩
    Node.withMeta (some { effMeta s with usage := some u2 }) s

/-- `walkUsage`/`walkSubtreeUsage`: totals over a directory's children,
skipping the sidecar name, counting each subdirectory plus its recursive
contents. -/
def usageOfChildren : Children → UsageStats
  | .nil => ⟨0, 0, 0⟩
  | .cons name c rest =>
    let restU := usageOfChildren rest
    if isMetaFile name then restU
    else
      match c with
      | .file b =>
        ⟨restU.totalSize + b.length, restU.fileCount + 1, restU.directoryCount⟩
      | .dir _ cs =>
        let sub := usageOfChildren cs
        ⟨restU.totalSize + sub.totalSize, restU.fileCount + sub.fileCount,
          restU.directoryCount + 1 + sub.directoryCount⟩

/-- `walkUsage` from `root.ts` applied to a directory node. -/
def walkUsage : Node → UsageStats
  | .file _ => ⟨0, 0, 0⟩
  | .dir _ cs => usageOfChildren cs

/-- Which permission flag an operation checks. -/
inductive PermKind : Type where
  | read
  | write
deriving DecidableEq, Repr

/-- Everything an operation can reject with: the six defined error kinds of
`errors.ts` (each carrying the offending path), plus the two undefined
escape hatches — a backend `DOMException`/`TypeError` propagating uncaught,
and a JavaScript `TypeError` raised inside the library itself. -/
inductive FsErr : Type where
  | notFound (path : List Char)
  | alreadyExists (path : List Char)
  | permissionDenied (path : List Char) (op : PermKind)
  | metadataSize (path : List Char)
  | notDirectory (path : List Char)
  | notFile (path : List Char)
  | backendErr
  | jsTypeErr
deriving DecidableEq, Repr

/-- True exactly for the six defined error kinds of `errors.ts`. -/
def isDefinedKind : FsErr → Bool
  | .backendErr => false
  | .jsTypeErr => false
  | _ => true

/-- The externally visible projection of a child entry (`FileEntry`). -/
structure FileEntry where
  name : FsName
  type : EntryType
  size : Nat
  ctime : Int
  mtime : Int
  meta : UserMeta
deriving DecidableEq, Repr

/-- `toFileEntry` from `mount.ts`. -/
def toFileEntry (name : FsName) (child : ChildMeta) : FileEntry :=
  ⟨name, child.type, child.size.getD 0, child.ctime, child.mtime, child.meta⟩

/-- `FileStat`: a `FileEntry` extended with the absolute path. -/
structure FileStat where
  path : List Char
  name : FsName
  type : EntryType
  size : Nat
  ctime : Int
  mtime : Int
  meta : UserMeta
deriving DecidableEq, Repr

/-- Watch event types. -/
inductive EventType : Type where
  | create
  | update
  | delete
deriving DecidableEq, Repr

/-- A watch event (`WatchEvent` in `types.ts`). -/
structure WatchEvent where
  type : EventType
  entry : FileEntry
  name : FsName
  path : List Char
deriving DecidableEq, Repr

/-- One call to `notifySubscribers`: the directory path it was fired for
and the event batch. -/
structure Notification where
  dirPath : List Char
  events : List WatchEvent
deriving DecidableEq, Repr

/-- Outcome of running one operation: the returned value or the error, the
final backend/sidecar state, and the notifications fired along the way.
State reached before a throw is kept, as in the source, where completed
backend writes are not rolled back. -/
inductive RunRes (α : Type) : Type where
  | ok (a : α) (s : Node) (evs : List Notification)
  | fail (e : FsErr) (s : Node) (evs : List Notification)

/-- Final state of a run. -/
def RunRes.state {α : Type} : RunRes α → Node
  | .ok _ s _ => s
  | .fail _ s _ => s

/-- Notifications fired by a run. -/
def RunRes.notifs {α : Type} : RunRes α → List Notification
  | .ok _ _ evs => evs
  | .fail _ _ evs => evs

/-- Whether a run resolved. -/
def RunRes.isOk {α : Type} : RunRes α → Bool
  | .ok _ _ _ => true
  | .fail _ _ _ => false

/-- The error of a failed run. -/
def RunRes.errOf {α : Type} : RunRes α → Option FsErr
  | .ok _ _ _ => none
  | .fail e _ _ => some e

/-- The value of a resolved run. -/
def RunRes.valOf {α : Type} : RunRes α → Option α
  | .ok a _ _ => some a
  | .fail _ _ _ => none

/-- Whether a run either resolved or rejected with one of the six defined
error kinds. -/
def RunRes.okOrKind {α : Type} : RunRes α → Bool
  | .ok _ _ _ => true
  | .fail e _ _ => isDefinedKind e

/-!
Mount operations, translated from the latest `mount.ts`. Every operation
first resolves the caller's path against the mount base. Locks serialize
metadata read-modify-write cycles; in this single-caller model a lock body
runs in place. `Date.now()` is the `now` parameter.
-/

/-- `readFile`: check the parent directory's read flag, then read the file,
turning any backend failure into `NotFound` carrying the user path. -/
def readFileRun (base path : List Char) (s : Node) : RunRes Bytes :=
  let abs := resolvePath base path
  let dirAbs := parentPath abs
  match getDirNode s (segmentsOf dirAbs) with
  | none => .fail .backendErr s []
  | some d =>
    if (effMeta d).permissions.read then
      match getFileAt s abs with
      | some b => .ok b s []
      | none => .fail (.notFound path) s []
    else .fail (.permissionDenied dirAbs .read) s []

/-- `readTextFile` is `readFile` followed by text decoding; the bytes are
returned undecoded here. -/
def readTextFileRun (base path : List Char) (s : Node) : RunRes Bytes :=
  readFileRun base path s

/-- `createReadStream` reads the same way as `readFile`, returning the
contents as a stream. -/
def createReadStreamRun (base path : List Char) (s : Node) : RunRes Bytes :=
  readFileRun base path s

/-- `getFileHandle(name, create) + write + close` on the directory at
`dirSegs`: fails on an invalid name or when the name is an existing
directory, otherwise creates or replaces the file's contents. -/
def writeContent (s : Node) (dirSegs : List FsName) (name : FsName)
    (data : Bytes) : Option Node :=
  match getDirNode s dirSegs with
  | some d =>
    if validName name then
      match alGet (Node.childrenOf d) name with
      | some (.dir _ _) => none
      | _ => some (updAt s dirSegs (Node.setChild name (.file data)))
    else none
  | _ => none

/-- `writeFile` from `mount.ts`: check the parent's write flag, write the
backend content, validate the user metadata size, upsert the child record
under the lock (preserving `ctime` on overwrite), apply the usage delta,
and notify. -/
def writeFileRun (base path : List Char) (data : Bytes) (um : UserMeta)
    (now : Int) (s : Node) : RunRes Unit :=
  let abs := resolvePath base path
  let dirAbs := parentPath abs
  let name := basename abs
  let dirSegs := segmentsOf dirAbs
  match getDirNode s dirSegs with
  | none => .fail .backendErr s []
  | some d =>
  if (effMeta d).permissions.write then
    match writeContent s dirSegs name data with
    | none => .fail .backendErr s []
    | some s1 =>
      if um ≠ [] ∧ 65536 < metaBytes um then .fail (.metadataSize path) s1 []
      else
        match getDirNode s1 dirSegs with
        | none => .fail .backendErr s1 []
        | some d1 =>
          let m := effMeta d1
          let existing := alGet m.children name
          let isNew := existing.isNone
          let oldSize : Nat := (existing.bind (fun c => c.size)).getD 0
          let sizeDelta : Int := (data.length : Int) - (oldSize : Int)
          let child : ChildMeta :=
            ⟨.file, some data.length, (existing.map (fun c => c.ctime)).getD now,
              now, um⟩
          let m2 := { m with children := alSet m.children name child }
          let s2 := updAt s1 dirSegs (Node.withMeta (some m2))
          let s3 := applyUsage s2 sizeDelta (if isNew then 1 else 0) 0
          let ty := if isNew then EventType.create else EventType.update
          .ok () s3 [⟨dirAbs, [⟨ty, toFileEntry name child, name, abs⟩]⟩]
  else .fail (.permissionDenied dirAbs .write) s []

/-- `appendFile` from `mount.ts`: check the parent's write flag, read the
existing content through `readFile`, rewrite the whole file, update the
tracked size and mtime under the lock (a JavaScript `TypeError` if the name
is untracked), apply a size-only usage delta, and notify. -/
def appendFileRun (base path : List Char) (data : Bytes) (now : Int)
    (s : Node) : RunRes Unit :=
  let abs := resolvePath base path
  let dirAbs := parentPath abs
  let name := basename abs
  let dirSegs := segmentsOf dirAbs
  match getDirNode s dirSegs with
  | none => .fail .backendErr s []
  | some d =>
  if (effMeta d).permissions.write then
    match readFileRun base path s with
    | .fail e s' evs => .fail e s' evs
    | .ok existing _ _ =>
      let combined := existing ++ data
      match writeContent s dirSegs name combined with
      | none => .fail .backendErr s []
      | some s1 =>
        match getDirNode s1 dirSegs with
        | none => .fail .backendErr s1 []
        | some d1 =>
          let m := effMeta d1
          match alGet m.children name with
          | none => .fail .jsTypeErr s1 []
          | some child =>
            let oldSize : Nat := child.size.getD 0
            let sizeDelta : Int := (combined.length : Int) - (oldSize : Int)
            let child2 := { child with size := some combined.length, mtime := now }
            let m2 := { m with children := alSet m.children name child2 }
            let s2 := updAt s1 dirSegs (Node.withMeta (some m2))
            let s3 := applyUsage s2 sizeDelta 0 0
            .ok () s3 [⟨dirAbs, [⟨.update, toFileEntry name child2, name, abs⟩]⟩]
  else .fail (.permissionDenied dirAbs .write) s []

/-- `remove` from `mount.ts`: a no-op when the resolved basename is empty;
otherwise check the parent's write flag, probe the entry type (computing
the subtree usage delta for a recursive directory removal, or the tracked
size for a file), remove the backend entry (`force` swallows the failure),
delete the child record under the lock, apply the negative usage delta, and
notify with the removed (or synthesized) entry. -/
def removeRun (base path : List Char) (recursive force : Bool) (now : Int)
    (s : Node) : RunRes Unit :=
  let abs := resolvePath base path
  let dirAbs := parentPath abs
  let name := basename abs
  if name = [] then .ok () s []
  else
  let dirSegs := segmentsOf dirAbs
  match getDirNode s dirSegs with
  | none => .fail .backendErr s []
  | some d =>
  if (effMeta d).permissions.write then
    let cs := Node.childrenOf d
    let probe : EntryType × UsageStats :=
      match alGet cs name with
      | some (.dir _ cs2) =>
        (.directory,
          if recursive then
            let u := usageOfChildren cs2
            ⟨u.totalSize, u.fileCount, u.directoryCount + 1⟩
          else ⟨0, 0, 0⟩)
      | _ => (.file, ⟨0, 0, 0⟩)
    let delta : UsageStats :=
      if probe.1 = .file then
        ⟨((((alGet (effMeta d).children name).bind (fun c => c.size)).getD 0 : Nat) : Int), 1, 0⟩
      else probe.2
    let removable : Bool :=
      match alGet cs name with
      | none => false
      | some (.file _) => true
      | some (.dir m2 cs2) =>
        recursive || ((match cs2 with | .nil => true | .cons _ _ _ => false) && m2.isNone)
    if removable then
      let s1 := updAt s dirSegs (Node.removeChild name)
      match getDirNode s1 dirSegs with
      | none => .fail .backendErr s1 []
      | some d1 =>
        let m := effMeta d1
        let removedEntry := (alGet m.children name).map (toFileEntry name)
        let s2 :=
          match alGet m.children name with
          | some _ =>
            updAt s1 dirSegs
              (Node.withMeta (some { m with children := alRemove m.children name }))
          | none => s1
        let s3 := applyUsage s2 (-delta.totalSize) (-delta.fileCount) (-delta.directoryCount)
        let entry := removedEntry.getD ⟨name, probe.1, 0, now, now, []⟩
        .ok () s3 [⟨dirAbs, [⟨.delete, entry, name, abs⟩]⟩]
    else if force then .ok () s []
    else .fail (.notFound path) s []
  else .fail (.permissionDenied dirAbs .write) s []

/-- `exists` from `mount.ts`: a best-effort probe that never throws. -/
def existsRun (base path : List Char) (s : Node) : RunRes Bool :=
  let abs := resolvePath base path
  let name := basename abs
  if name = [] then .ok (getDirNode s (segmentsOf abs)).isSome s []
  else
    match getDirNode s (segmentsOf (parentPath abs)) with
    | none => .ok false s []
    | some d =>
      match alGet (Node.childrenOf d) name with
      | some _ => .ok true s []
      | none => .ok false s []

/-- A partial permissions patch (`mkdir`'s `permissions` option and
`setPermissions`' argument). -/
structure PermsPatch where
  read : Option Bool
  write : Option Bool
deriving DecidableEq, Repr

/-- One step of recursive `mkdir`: create the backend directory for this
segment if needed, seed its child record in the parent under the parent's
lock, and — only when the record was newly created — apply a usage delta
and notify; then continue with the remaining segments. -/
def mkdirRecLoop (now : Int) :
    List FsName → List FsName → List Char → Node → RunRes Unit
  | [], _, _, s => .ok () s []
  | seg :: rest, curSegs, curPath, s =>
    let parentPathStr := if curPath = [] then ['/'] else curPath
    let newPath := curPath ++ '/' :: seg
    match getDirNode s curSegs with
    | none => .fail .backendErr s []
    | some d =>
      let isFile : Bool :=
        match alGet (Node.childrenOf d) seg with
        | some (.file _) => true
        | _ => false
      if isFile then .fail .backendErr s []
      else
        let t :=
          match alGet (Node.childrenOf d) seg with
          | none => updAt s curSegs (Node.setChild seg (.dir none .nil))
          | some _ => s
        match getDirNode t curSegs with
        | none => .fail .backendErr t []
        | some dP =>
          let m := effMeta dP
          let created := (alGet m.children seg).isNone
          let t2 :=
            if created then
              updAt t curSegs (Node.withMeta (some { m with
                children := alSet m.children seg ⟨.directory, none, now, now, []⟩ }))
            else t
          let t3 := if created then applyUsage t2 0 0 1 else t2
          let evs : List Notification :=
            if created then
              [⟨parentPathStr, [⟨.create, ⟨seg, .directory, 0, now, now, []⟩, seg, newPath⟩]⟩]
            else []
          match mkdirRecLoop now rest (curSegs ++ [seg]) newPath t3 with
          | .ok a tF evsF => .ok a tF (evs ++ evsF)
          | .fail e tF evsF => .fail e tF (evs ++ evsF)

/-- `mkdir` from `mount.ts`: a no-op at the mount root. The recursive form
walks every segment (with no permission check); the plain form checks the
parent's write flag, fails `Exists` when the directory already exists,
creates it, records it, applies a usage delta, and notifies. Either form
then applies the optional permissions patch to the final directory. -/
def mkdirRun (base path : List Char) (recursive : Bool)
    (permsOpt : Option PermsPatch) (now : Int) (s : Node) : RunRes Unit :=
  let abs := resolvePath base path
  let dirAbs := parentPath abs
  let name := basename abs
  if name = [] then .ok () s []
  else
  let afterCreate : RunRes Unit :=
    if recursive then mkdirRecLoop now (segmentsOf abs) [] [] s
    else
      match getDirNode s (segmentsOf dirAbs) with
      | none => .fail .backendErr s []
      | some d =>
      if (effMeta d).permissions.write then
        match alGet (Node.childrenOf d) name with
        | some (.dir _ _) => .fail (.alreadyExists path) s []
        | some (.file _) => .fail .backendErr s []
        | none =>
          if validName name then
            let s1 := updAt s (segmentsOf dirAbs) (Node.setChild name (.dir none .nil))
            match getDirNode s1 (segmentsOf dirAbs) with
            | none => .fail .backendErr s1 []
            | some d1 =>
              let m := effMeta d1
              let m2 := { m with
                children := alSet m.children name ⟨.directory, none, now, now, []⟩ }
              let s2 := updAt s1 (segmentsOf dirAbs) (Node.withMeta (some m2))
              let s3 := applyUsage s2 0 0 1
              .ok () s3 [⟨dirAbs, [⟨.create, ⟨name, .directory, 0, now, now, []⟩, name, abs⟩]⟩]
          else .fail .backendErr s []
      else .fail (.permissionDenied dirAbs .write) s []
  match afterCreate with
  | .fail e s' evs => .fail e s' evs
  | .ok _ s' evs =>
    match permsOpt with
    | none => .ok () s' evs
    | some patch =>
      match getDirNode s' (segmentsOf abs) with
      | none => .fail .backendErr s' evs
      | some dT =>
        let mT := effMeta dT
        let mT2 := { mT with permissions :=
          ⟨patch.read.getD mT.permissions.read, patch.write.getD mT.permissions.write⟩ }
        .ok () (updAt s' (segmentsOf abs) (Node.withMeta (some mT2))) evs

/-- `ls` from `mount.ts`: check the target directory's own read flag, then
return the tracked records plus synthesized entries for backend objects not
tracked (skipping the sidecar name). -/
def lsRun (base path : List Char) (now : Int) (s : Node) : RunRes (List FileEntry) :=
  let abs := resolvePath base path
  match getDirNode s (segmentsOf abs) with
  | none => .fail .backendErr s []
  | some d =>
  if (effMeta d).permissions.read then
    let m := effMeta d
    let tracked := m.children.map (fun kv => toFileEntry kv.1 kv.2)
    let untracked :=
      ((Node.childrenOf d).filter
        (fun kv => !(isMetaFile kv.1 || (alGet m.children kv.1).isSome))).map
        (fun kv =>
          match kv.2 with
          | .file b => (⟨kv.1, .file, b.length, now, now, []⟩ : FileEntry)
          | .dir _ _ => ⟨kv.1, .directory, 0, now, now, []⟩)
    .ok (tracked ++ untracked) s []
  else .fail (.permissionDenied abs .read) s []

/-- `readDir` from `mount.ts`: names only, excluding the sidecar. -/
def readDirRun (base path : List Char) (s : Node) : RunRes (List FsName) :=
  let abs := resolvePath base path
  match getDirNode s (segmentsOf abs) with
  | none => .fail .backendErr s []
  | some d =>
  if (effMeta d).permissions.read then
    .ok (((Node.childrenOf d).filter (fun kv => !(isMetaFile kv.1))).map Prod.fst) s []
  else .fail (.permissionDenied abs .read) s []

/-- `stat` from `mount.ts` (no permission check): the root path gets a
synthetic directory stat; a tracked name reports its record; an untracked
name falls back to probing the backend; otherwise `NotFound`. -/
def statRun (base path : List Char) (now : Int) (s : Node) : RunRes FileStat :=
  let abs := resolvePath base path
  let dirAbs := parentPath abs
  let name := basename abs
  if name = [] then .ok ⟨['/'], [], .directory, 0, 0, 0, []⟩ s []
  else
    match getDirNode s (segmentsOf dirAbs) with
    | none => .fail .backendErr s []
    | some d =>
      match alGet (effMeta d).children name with
      | some child =>
        .ok ⟨abs, name, child.type, child.size.getD 0, child.ctime, child.mtime,
          child.meta⟩ s []
      | none =>
        match alGet (Node.childrenOf d) name with
        | some (.file b) => .ok ⟨abs, name, .file, b.length, now, now, []⟩ s []
        | some (.dir _ _) => .ok ⟨abs, name, .directory, 0, now, now, []⟩ s []
        | none => .fail (.notFound path) s []

/-- `setMeta` from `mount.ts`: validate the metadata size first, check the
parent's write flag, then under the lock merge into the tracked record —
bootstrapping it from the backend if untracked, failing `NotFound` when the
name does not exist at all — refresh mtime, and notify. -/
def setMetaRun (base path : List Char) (um : UserMeta) (now : Int)
    (s : Node) : RunRes Unit :=
  if 65536 < metaBytes um then .fail (.metadataSize path) s []
  else
  let abs := resolvePath base path
  let dirAbs := parentPath abs
  let name := basename abs
  let dirSegs := segmentsOf dirAbs
  match getDirNode s dirSegs with
  | none => .fail .backendErr s []
  | some d =>
  if (effMeta d).permissions.write then
    let m := effMeta d
    let childOpt : Option ChildMeta :=
      match alGet m.children name with
      | some c => some c
      | none =>
        match alGet (Node.childrenOf d) name with
        | some (.file b) => some ⟨.file, some b.length, now, now, []⟩
        | some (.dir _ _) => some ⟨.directory, none, now, now, []⟩
        | none => none
    match childOpt with
    | none => .fail (.notFound path) s []
    | some child =>
      let child2 := { child with meta := mergeMeta child.meta um, mtime := now }
      let m2 := { m with children := alSet m.children name child2 }
      let s2 := updAt s dirSegs (Node.withMeta (some m2))
      .ok () s2 [⟨dirAbs, [⟨.update, toFileEntry name child2, name, abs⟩]⟩]
  else .fail (.permissionDenied dirAbs .write) s []

/-- `getMeta` from `mount.ts`: check the parent's read flag; `NotFound` for
untracked names. -/
def getMetaRun (base path : List Char) (s : Node) : RunRes UserMeta :=
  let abs := resolvePath base path
  let dirAbs := parentPath abs
  let name := basename abs
  match getDirNode s (segmentsOf dirAbs) with
  | none => .fail .backendErr s []
  | some d =>
  if (effMeta d).permissions.read then
    match alGet (effMeta d).children name with
    | some child => .ok child.meta s []
    | none => .fail (.notFound path) s []
  else .fail (.permissionDenied dirAbs .read) s []

/-- `setPermissions` from `mount.ts`: merge the patch into the directory's
record under its lock; no permission check of its own and no notification. -/
def setPermissionsRun (base dirPath : List Char) (patch : PermsPatch)
    (s : Node) : RunRes Unit :=
  let abs := resolvePath base dirPath
  match getDirNode s (segmentsOf abs) with
  | none => .fail .backendErr s []
  | some d =>
    let m := effMeta d
    let m2 := { m with permissions :=
      ⟨patch.read.getD m.permissions.read, patch.write.getD m.permissions.write⟩ }
    .ok () (updAt s (segmentsOf abs) (Node.withMeta (some m2))) []

/-- `query` from `mount.ts`: read-checked; filters the tracked children
only. -/
def queryRun (base dirPath : List Char) (filter : FileEntry → Bool)
    (s : Node) : RunRes (List FileEntry) :=
  let abs := resolvePath base dirPath
  match getDirNode s (segmentsOf abs) with
  | none => .fail .backendErr s []
  | some d =>
  if (effMeta d).permissions.read then
    .ok (((effMeta d).children.map (fun kv => toFileEntry kv.1 kv.2)).filter filter) s []
  else .fail (.permissionDenied abs .read) s []

/-- `utimes` from `mount.ts`: write-checked; `NotFound` for untracked
names; updates mtime under the lock, with no notification. -/
def utimesRun (base path : List Char) (mtime : Int) (s : Node) : RunRes Unit :=
  let abs := resolvePath base path
  let dirAbs := parentPath abs
  let name := basename abs
  let dirSegs := segmentsOf dirAbs
  match getDirNode s dirSegs with
  | none => .fail .backendErr s []
  | some d =>
  if (effMeta d).permissions.write then
    let m := effMeta d
    match alGet m.children name with
    | none => .fail (.notFound path) s []
    | some child =>
      let m2 := { m with children := alSet m.children name { child with mtime := mtime } }
      .ok () (updAt s dirSegs (Node.withMeta (some m2))) []
  else .fail (.permissionDenied dirAbs .write) s []

/-- `createWriteStream` from `mount.ts`: write-checked; probes whether the
file already exists (the returned flag), then opens a writable — creating
an empty backend file for a new name; writing and closing the stream are
not modelled further. -/
def createWriteStreamRun (base path : List Char) (s : Node) : RunRes Bool :=
  let abs := resolvePath base path
  let dirAbs := parentPath abs
  let name := basename abs
  let dirSegs := segmentsOf dirAbs
  match getDirNode s dirSegs with
  | none => .fail .backendErr s []
  | some d =>
  if (effMeta d).permissions.write then
    let isNew : Bool :=
      match alGet (Node.childrenOf d) name with
      | some (.file _) => false
      | _ => true
    match alGet (Node.childrenOf d) name with
    | some (.dir _ _) => .fail .backendErr s []
    | some (.file _) => .ok isNew s []
    | none =>
      if validName name then
        .ok isNew (updAt s dirSegs (Node.setChild name (.file []))) []
      else .fail .backendErr s []
  else .fail (.permissionDenied dirAbs .write) s []

/-- `copyFile` from `mount.ts`: read the source content and its user
metadata, then delegate to `writeFile` on the destination. -/
def copyFileRun (base src dest : List Char) (now : Int) (s : Node) : RunRes Unit :=
  match readFileRun base src s with
  | .fail e s' evs => .fail e s' evs
  | .ok data s' _ =>
    let srcAbs := resolvePath base src
    match getDirNode s' (segmentsOf (parentPath srcAbs)) with
    | none => .fail .backendErr s' []
    | some d =>
      let childMeta :=
        ((alGet (effMeta d).children (basename srcAbs)).map (fun c => c.meta)).getD []
      writeFileRun base dest data childMeta now s'

/-- `moveFile` from `mount.ts`: `copyFile` then `remove` of the source —
not atomic. -/
def moveFileRun (base src dest : List Char) (now : Int) (s : Node) : RunRes Unit :=
  match copyFileRun base src dest now s with
  | .fail e s' evs => .fail e s' evs
  | .ok _ s' evs =>
    match removeRun base src false false now s' with
    | .ok a s2 evs2 => .ok a s2 (evs ++ evs2)
    | .fail e s2 evs2 => .fail e s2 (evs ++ evs2)

/-!
Root operations, translated from the latest `root.ts`.
-/

/-- The cached usage block of the root record, if any. -/
def cachedUsage (s : Node) : Option UsageStats :=
  (effMeta s).usage

/-- `Root.usage` from `root.ts`: with `full`, walk the tree and persist the
result as the new cache; otherwise return the cached counters, falling back
to a full walk when no cache exists yet. -/
def usageRun (full : Bool) (s : Node) : RunRes UsageStats :=
  if full then
    let stats := walkUsage s
    let m := effMeta s
    .ok stats (Node.withMeta (some { m with usage := some stats }) s) []
  else
    match (effMeta s).usage with
    | some u => .ok u s []
    | none =>
      let stats := walkUsage s
      let m := effMeta s
      .ok stats (Node.withMeta (some { m with usage := some stats }) s) []

/-- The record entry `walkFsck` synthesizes for a backend object discovered
without one: type and size from the object, the current time for both
timestamps, empty user metadata. -/
def fsckChild (now : Int) : Node → ChildMeta
  | .file b => ⟨.file, some b.length, now, now, []⟩
  | .dir _ _ => ⟨.directory, none, now, now, []⟩

/-- The first repair loop of `walkFsck`: over the real entries, add a
record for any missing name and correct the recorded size of any tracked
name whose backend object is a file of a different size, tracking whether
anything changed. -/
def fsckAddFix (now : Int) :
    List (FsName × Node) → List (FsName × ChildMeta) → Bool →
    List (FsName × ChildMeta) × Bool
  | [], children, changed => (children, changed)
  | (name, h) :: rest, children, changed =>
    match alGet children name with
    | none => fsckAddFix now rest (children ++ [(name, fsckChild now h)]) true
    | some cm =>
      match h with
      | .file b =>
        if cm.size ≠ some b.length then
          fsckAddFix now rest (alSet children name { cm with size := some b.length }) true
        else fsckAddFix now rest children changed
      | .dir _ _ => fsckAddFix now rest children changed

/-- The record-repair half of `walkFsck` on one directory: given the real
entries (sidecar excluded) and the stored record, add missing entries, fix
file sizes, drop stale entries; returns the repaired record and whether
anything changed. -/
def fsckRepairRecord (now : Int) (actual : List (FsName × Node))
    (meta : DirMeta) : DirMeta × Bool :=
  let step1 := fsckAddFix now actual meta.children false
  let stale := step1.1.any (fun kv => (alGet actual kv.1).isNone)
  let ch2 := step1.1.filter (fun kv => (alGet actual kv.1).isSome)
  ({ meta with children := ch2 }, step1.2 || stale)

mutual

/-- `walkFsck` from `root.ts`: enumerate the real entries (excluding the
sidecar), add missing records, correct file sizes, drop stale records,
persist the record only if something changed, then recurse into every real
subdirectory. Returns the repaired tree with the `repaired` and `entries`
counts. -/
def walkFsck (now : Int) : Node → Node × Nat × Nat
  | .file b => (.file b, 0, 0)
  | .dir m cs =>
    let actual := cs.toList.filter (fun kv => !(isMetaFile kv.1))
    let rep := fsckRepairRecord now actual (m.getD defaultDirMeta)
    let m2 : Option DirMeta := if rep.2 then some rep.1 else m
    let sub := walkFsckChildren now cs
    (.dir m2 sub.1, (if rep.2 then 1 else 0) + sub.2.1, actual.length + sub.2.2)

/-- Recursion of `walkFsck` into the subdirectory children of a directory,
leaving files (and the sidecar name) untouched. -/
def walkFsckChildren (now : Int) : Children → Children × Nat × Nat
  | .nil => (.nil, 0, 0)
  | .cons name c rest =>
    let restR := walkFsckChildren now rest
    if isMetaFile name then (.cons name c restR.1, restR.2)
    else
      match c with
      | .file b => (.cons name (.file b) restR.1, restR.2)
      | .dir mm ccs =>
        let sub := walkFsck now (.dir mm ccs)
        (.cons name sub.1 restR.1, restR.2.1 + sub.2.1, restR.2.2 + sub.2.2)

end

/-- `Root.fsck` from `root.ts`: run the repair walk, then rebuild the
cached usage block with a full walk. -/
def fsckRun (now : Int) (s : Node) : RunRes (Nat × Nat) :=
  let r := walkFsck now s
  let stats := walkUsage r.1
  let m := effMeta r.1
  .ok r.2 (Node.withMeta (some { m with usage := some stats }) r.1) []

/-!
Specification predicates used to state the claims.
-/

/-- The read flag the permission check at `segs` would consult (true when
the path does not resolve, so that hypotheses stay satisfiable). -/
def readPermAt (s : Node) (segs : List FsName) : Bool :=
  match getDirNode s segs with
  | some d => (effMeta d).permissions.read
  | none => true

/-- The write flag the permission check at `segs` would consult. -/
def writePermAt (s : Node) (segs : List FsName) : Bool :=
  match getDirNode s segs with
  | some d => (effMeta d).permissions.write
  | none => true

/-- The sidecar record stored at a directory path (none when the path does
not lead to a directory or the directory has no sidecar). -/
def sidecarAt (s : Node) (segs : List FsName) : Option DirMeta :=
  match getNode s segs with
  | some (.dir m _) => m
  | _ => none

/-- A directory's record matches the backend: every real entry (sidecar
aside) is tracked, tracked files record their real size, and no record
entry is stale. -/
def recordMatches (m : Option DirMeta) (cs : List (FsName × Node)) : Bool :=
  let children := (m.getD defaultDirMeta).children
  let actual := cs.filter (fun kv => !(isMetaFile kv.1))
  actual.all (fun kv =>
    match alGet children kv.1 with
    | none => false
    | some cm =>
      match kv.2 with
      | .file b => decide (cm.size = some b.length)
      | .dir _ _ => true) &&
  children.all (fun kv => (alGet actual kv.1).isSome)

mutual

/-- Every directory of the tree has a record matching the backend. -/
def fsckOk : Node → Bool
  | .file _ => true
  | .dir m cs => recordMatches m cs.toList && fsckOkChildren cs

/-- `fsckOk` over a directory's children. -/
def fsckOkChildren : Children → Bool
  | .nil => true
  | .cons _ c rest => fsckOk c && fsckOkChildren rest

end

/-- Children names are unique and never the reserved sidecar name — true of
every tree a real backend can present, since a directory's entries are
keyed by name and the sidecar is a file held in the `meta` field here. -/
def namesOk {β : Type} : List (FsName × β) → Bool
  | [] => true
  | (n, _) :: rest => !(isMetaFile n) && (alGet rest n).isNone && namesOk rest

mutual

/-- Backend well-formedness of a tree: see `namesOk`, recursively. -/
def nodeWF : Node → Bool
  | .file _ => true
  | .dir _ cs => namesOk cs.toList && nodeWFChildren cs

/-- `nodeWF` over a directory's children. -/
def nodeWFChildren : Children → Bool
  | .nil => true
  | .cons _ c rest => nodeWF c && nodeWFChildren rest

end

/-- The name-and-shape view of a child entry: directories collapse to
`none`, files to their byte length — all `fsck`'s record repair of a parent
looks at. -/
def nodeShape : Node → Option Nat
  | .file b => some b.length
  | .dir _ _ => none

/-- `nodeShape` applied under the key of an entry. -/
def shapeKV (kv : FsName × Node) : FsName × Option Nat :=
  (kv.1, nodeShape kv.2)

/-!
Lemmas about the path layer.
-/

theorem splitOnP_pieces (p : Char → Bool) (l : List Char) :
    ∀ x ∈ l.splitOnP p, ∀ c ∈ x, ¬ p c = true := by
  induction l with
  | nil =>
    intro x hx c hc
    simp only [List.splitOnP_nil, List.mem_singleton] at hx
    subst hx
    simp at hc
  | cons a rest ih =>
    intro x hx c hc
    rw [List.splitOnP_cons] at hx
    by_cases ha : p a = true
    · rw [if_pos ha] at hx
      rcases List.mem_cons.mp hx with h | h
      · subst h; simp at hc
      · exact ih x h c hc
    · rw [if_neg ha] at hx
      rcases hsp : rest.splitOnP p with _ | ⟨hd, tl⟩
      · exact absurd hsp (List.splitOnP_ne_nil p rest)
      · rw [hsp] at hx
        simp only [List.modifyHead] at hx
        rcases List.mem_cons.mp hx with h | h
        · subst h
          rcases List.mem_cons.mp hc with h2 | h2
          · subst h2; exact ha
          · exact ih hd (by rw [hsp]; exact List.mem_cons_self _ _) c h2
        · exact ih x (by rw [hsp]; exact List.mem_cons_of_mem _ h) c hc

theorem validSeg_of_mem_segmentsOf {l : List Char} {s : Seg}
    (h : s ∈ segmentsOf l) : ValidSeg s := by
  unfold segmentsOf at h
  rw [List.mem_filter] at h
  refine ⟨?_, ?_⟩
  · intro he
    subst he
    simp at h
  · intro hs
    have := splitOnP_pieces (· == '/') l s (by simpa [List.splitOn] using h.1) '/' hs
    simp at this

theorem splitOn_slash_cons (x : List Char) :
    ('/' :: x).splitOn '/' = [] :: x.splitOn '/' := by
  simp [List.splitOn, List.splitOnP_cons]

theorem segmentsOf_slash_cons (x : List Char) :
    segmentsOf ('/' :: x) = segmentsOf x := by
  simp [segmentsOf, splitOn_slash_cons]

theorem filter_nonempty_of_valid {L : List Seg} (h : ∀ s ∈ L, s ≠ []) :
    L.filter (fun s => !s.isEmpty) = L := by
  rw [List.filter_eq_self]
  intro a ha
  simpa [List.isEmpty_iff] using h a ha

theorem segmentsOf_renderPath (segs : List Seg) (h : ∀ s ∈ segs, ValidSeg s) :
    segmentsOf (renderPath segs) = segs := by
  cases segs with
  | nil => rfl
  | cons a t =>
    unfold renderPath
    rw [segmentsOf_slash_cons]
    unfold segmentsOf
    rw [List.splitOn_intercalate _ '/'
      (fun l hl => (h l hl).2) (by simp)]
    exact filter_nonempty_of_valid (fun s hs => (h s hs).1)

theorem splitOn_seg_append {a : Seg} (ha : ValidSeg a) (u : List Char) :
    (a ++ '/' :: u).splitOn '/' = a :: u.splitOn '/' := by
  simpa [List.splitOn] using
    List.splitOnP_first (· == '/') a
      (fun x hx => by
        simp only [beq_iff_eq]
        intro hxe
        exact ha.2 (hxe ▸ hx)) '/' (by simp) u

theorem segmentsOf_seg_append {a : Seg} (ha : ValidSeg a) (u : List Char) :
    segmentsOf (a ++ '/' :: u) = a :: segmentsOf u := by
  unfold segmentsOf
  rw [splitOn_seg_append ha u,
    List.filter_cons_of_pos (by simp [List.isEmpty_iff, ha.1])]

theorem intercalate_cons_cons (s a b : List Char) (t : List (List Char)) :
    List.intercalate s (a :: b :: t) = a ++ s ++ List.intercalate s (b :: t) := by
  simp [List.intercalate, List.intersperse_cons_cons]

theorem segmentsOf_intercalate_append (bs : List Seg) (u : List Char)
    (hb : ∀ s ∈ bs, ValidSeg s) :
    segmentsOf (List.intercalate ['/'] bs ++ '/' :: u) = bs ++ segmentsOf u := by
  induction bs with
  | nil => simpa [List.intercalate] using segmentsOf_slash_cons u
  | cons a t ih =>
    cases t with
    | nil =>
      have h1 : List.intercalate ['/'] [a] = a := by
        simp [List.intercalate]
      rw [h1, segmentsOf_seg_append (hb a (by simp)) u]
      rfl
    | cons b t2 =>
      rw [intercalate_cons_cons]
      have hassoc : a ++ ['/'] ++ List.intercalate ['/'] (b :: t2) ++ '/' :: u
          = a ++ '/' :: (List.intercalate ['/'] (b :: t2) ++ '/' :: u) := by
        simp
      rw [hassoc, segmentsOf_seg_append (hb a (by simp)) _,
        ih (fun s hs => hb s (List.mem_cons_of_mem _ hs))]
      rfl

theorem segmentsOf_render_append (bs : List Seg) (u : List Char)
    (hb : ∀ s ∈ bs, ValidSeg s) :
    segmentsOf (renderPath bs ++ '/' :: u) = bs ++ segmentsOf u := by
  have h1 : renderPath bs ++ '/' :: u
      = '/' :: (List.intercalate ['/'] bs ++ '/' :: u) := by
    simp [renderPath]
  rw [h1, segmentsOf_slash_cons, segmentsOf_intercalate_append bs u hb]

theorem normLoop_normal {segs acc : List Seg}
    (hacc : ∀ s ∈ acc, NormalSeg s) (hsegs : ∀ s ∈ segs, ValidSeg s) :
    ∀ s ∈ normLoop segs acc, NormalSeg s := by
  induction segs generalizing acc with
  | nil => simpa [normLoop] using hacc
  | cons a rest ih =>
    simp only [normLoop]
    by_cases h1 : a = ['.']
    · rw [if_pos h1]
      exact ih hacc (fun s hs => hsegs s (List.mem_cons_of_mem _ hs))
    · rw [if_neg h1]
      by_cases h2 : a = ['.', '.']
      · rw [if_pos h2]
        refine ih (fun s hs => hacc s (List.dropLast_sublist acc |>.mem hs))
          (fun s hs => hsegs s (List.mem_cons_of_mem _ hs))
      · rw [if_neg h2]
        refine ih (fun s hs => ?_) (fun s hs => hsegs s (List.mem_cons_of_mem _ hs))
        rcases List.mem_append.mp hs with h | h
        · exact hacc s h
        · rcases List.mem_singleton.mp h with rfl
          exact ⟨hsegs s (by simp), h1, h2⟩

theorem resolveLoop_normal {n : Nat} {segs acc : List Seg}
    (hacc : ∀ s ∈ acc, NormalSeg s) (hsegs : ∀ s ∈ segs, ValidSeg s) :
    ∀ s ∈ resolveLoop n segs acc, NormalSeg s := by
  induction segs generalizing acc with
  | nil => simpa [resolveLoop] using hacc
  | cons a rest ih =>
    simp only [resolveLoop]
    by_cases h1 : a = ['.']
    · rw [if_pos h1]
      exact ih hacc (fun s hs => hsegs s (List.mem_cons_of_mem _ hs))
    · rw [if_neg h1]
      by_cases h2 : a = ['.', '.']
      · rw [if_pos h2]
        refine ih (fun s hs => ?_) (fun s hs => hsegs s (List.mem_cons_of_mem _ hs))
        by_cases h3 : n < acc.length
        · rw [if_pos h3] at hs
          exact hacc s (List.dropLast_sublist acc |>.mem hs)
        · rw [if_neg h3] at hs
          exact hacc s hs
      · rw [if_neg h2]
        refine ih (fun s hs => ?_) (fun s hs => hsegs s (List.mem_cons_of_mem _ hs))
        rcases List.mem_append.mp hs with h | h
        · exact hacc s h
        · rcases List.mem_singleton.mp h with rfl
          exact ⟨hsegs s (by simp), h1, h2⟩

theorem dropLast_append_ne_nil {α : Type} (l : List α) {m : List α} (hm : m ≠ []) :
    (l ++ m).dropLast = l ++ m.dropLast :=
  List.dropLast_append_of_ne_nil l hm

theorem resolveLoop_base_stays {bs : List Seg} (segs : List Seg) {acc : List Seg}
    (hpre : bs <+: acc) :
    bs <+: resolveLoop bs.length segs acc := by
  induction segs generalizing acc with
  | nil => simpa [resolveLoop] using hpre
  | cons a rest ih =>
    simp only [resolveLoop]
    by_cases h1 : a = ['.']
    · rw [if_pos h1]; exact ih hpre
    · rw [if_neg h1]
      by_cases h2 : a = ['.', '.']
      · rw [if_pos h2]
        by_cases h3 : bs.length < acc.length
        · rw [if_pos h3]
          rcases hpre with ⟨extra, rfl⟩
          have hex : extra ≠ [] := by
            intro he
            subst he
            simp at h3
          rw [dropLast_append_ne_nil bs hex]
          exact ih ⟨extra.dropLast, rfl⟩
        · rw [if_neg h3]; exact ih hpre
      · rw [if_neg h2]
        rcases hpre with ⟨extra, rfl⟩
        exact ih ⟨extra ++ [a], by simp⟩

theorem resolveLoop_pushes {n : Nat} (bs : List Seg) (rest : List Seg) (acc : List Seg)
    (hb : ∀ s ∈ bs, s ≠ ['.'] ∧ s ≠ ['.', '.']) :
    resolveLoop n (bs ++ rest) acc = resolveLoop n rest (acc ++ bs) := by
  induction bs generalizing acc with
  | nil => simp
  | cons a t ih =>
    have ha := hb a (by simp)
    simp only [List.cons_append, resolveLoop, if_neg ha.1, if_neg ha.2]
    have h4 := ih (acc ++ [a]) (fun s hs => hb s (List.mem_cons_of_mem _ hs))
    simpa [List.append_assoc] using h4

/-- C1: for every mount base `B` and every user input — however many `..`
segments it contains — `resolvePath B input` is an absolute path whose
segment list extends the segment list of `normalizePath B`: the resolved
path never leaves the base's own subtree. -/
theorem C1_resolvePath_stays_inside_base (B inp : List Char) :
    segmentsOf (normalizePath B) <+: segmentsOf (resolvePath B inp) ∧
    (resolvePath B inp).head? = some '/' := by
  have hvalid : ∀ s ∈ segmentsOf B, ValidSeg s :=
    fun s hs => validSeg_of_mem_segmentsOf hs
  have hbs : ∀ s ∈ normLoop (segmentsOf B) [], NormalSeg s :=
    normLoop_normal (by simp) hvalid
  have hbsV : ∀ s ∈ normLoop (segmentsOf B) [], ValidSeg s :=
    fun s hs => (hbs s hs).1
  have hbase : segmentsOf (normalizePath B) = normLoop (segmentsOf B) [] :=
    segmentsOf_renderPath _ hbsV
  refine ⟨?_, by simp [resolvePath, renderPath]⟩
  rw [hbase]
  unfold resolvePath
  simp only []
  have main : ∀ u : List Char,
      normLoop (segmentsOf B) [] <+:
        segmentsOf (renderPath (resolveLoop (segmentsOf (normalizePath B)).length
          (segmentsOf (normalizePath B ++ '/' :: u)) [])) := by
    intro u
    have hcomb : segmentsOf (normalizePath B ++ '/' :: u)
        = normLoop (segmentsOf B) [] ++ segmentsOf u :=
      segmentsOf_render_append _ u hbsV
    rw [hcomb, hbase,
      resolveLoop_pushes _ _ _ (fun s hs => ⟨(hbs s hs).2.1, (hbs s hs).2.2⟩)]
    have hres : ∀ s ∈ resolveLoop (normLoop (segmentsOf B) []).length
        (segmentsOf u) ([] ++ normLoop (segmentsOf B) []), NormalSeg s :=
      resolveLoop_normal (by simpa using hbs)
        (fun s hs => validSeg_of_mem_segmentsOf hs)
    rw [segmentsOf_renderPath _ (fun s hs => (hres s hs).1)]
    simpa using resolveLoop_base_stays (segmentsOf u) (List.prefix_refl _)
  by_cases hh : inp.head? = some '/'
  · rw [if_pos hh]
    cases inp with
    | nil => simp at hh
    | cons c u =>
      have hc : c = '/' := by simpa using hh
      subst hc
      exact main u
  · rw [if_neg hh]
    exact main inp

theorem lastSlashIdx_no_slash {t : List Char} (h : '/' ∉ t) :
    lastSlashIdx t = -1 := by
  induction t with
  | nil => rfl
  | cons c rest ih =>
    have hc : c ≠ '/' := fun he => h (he ▸ List.mem_cons_self c rest)
    have hr : lastSlashIdx rest = -1 := ih (fun hm => h (List.mem_cons_of_mem _ hm))
    simp only [lastSlashIdx, hr]
    norm_num [hc]

theorem lastSlashIdx_append_seg (l : List Char) {t : List Char} (ht : '/' ∉ t) :
    lastSlashIdx (l ++ '/' :: t) = (l.length : Int) := by
  induction l with
  | nil =>
    simp only [List.nil_append, lastSlashIdx, lastSlashIdx_no_slash ht]
    norm_num
  | cons c rest ih =>
    show (if 0 ≤ lastSlashIdx (rest ++ '/' :: t) then lastSlashIdx (rest ++ '/' :: t) + 1
      else if c = '/' then 0 else -1) = ((c :: rest).length : Int)
    rw [ih, if_pos (by positivity)]
    simp only [List.length_cons]
    push_cast
    ring

theorem normLoop_fixpoint (segs : List Seg) (acc : List Seg)
    (h : ∀ s ∈ segs, s ≠ ['.'] ∧ s ≠ ['.', '.']) :
    normLoop segs acc = acc ++ segs := by
  induction segs generalizing acc with
  | nil => simp [normLoop]
  | cons a t ih =>
    have ha := h a (by simp)
    simp only [normLoop, if_neg ha.1, if_neg ha.2]
    rw [ih (acc ++ [a]) (fun s hs => h s (List.mem_cons_of_mem _ hs))]
    simp

theorem segmentsOf_single {t : Seg} (ht : ValidSeg t) : segmentsOf t = [t] := by
  unfold segmentsOf
  rw [show t.splitOn '/' = [t] from ?_]
  · simp [List.isEmpty_iff, ht.1]
  · simpa [List.splitOn] using
      List.splitOnP_eq_single (· == '/') t
        (fun x hx => by
          simp only [beq_iff_eq]
          intro he
          exact ht.2 (he ▸ hx))

theorem intercalate_pair (x y : List Char) :
    List.intercalate ['/'] [x, y] = x ++ '/' :: y := by
  rw [intercalate_cons_cons]
  have : List.intercalate ['/'] [y] = y := by simp [List.intercalate]
  rw [this]
  simp

theorem intercalate_concat (a : Seg) (u : List Seg) (t : Seg) :
    List.intercalate ['/'] ((a :: u) ++ [t])
      = List.intercalate ['/'] (a :: u) ++ '/' :: t := by
  induction u generalizing a with
  | nil =>
    have h2 : List.intercalate ['/'] [a] = a := by simp [List.intercalate]
    rw [show (a :: ([] : List Seg)) ++ [t] = [a, t] from rfl, intercalate_pair, h2]
  | cons b v ih =>
    calc List.intercalate ['/'] ((a :: b :: v) ++ [t])
        = List.intercalate ['/'] (a :: b :: (v ++ [t])) := by simp
      _ = a ++ ['/'] ++ List.intercalate ['/'] (b :: (v ++ [t])) :=
          intercalate_cons_cons ['/'] a b (v ++ [t])
      _ = a ++ ['/'] ++ List.intercalate ['/'] ((b :: v) ++ [t]) := by simp
      _ = a ++ ['/'] ++ (List.intercalate ['/'] (b :: v) ++ '/' :: t) := by rw [ih b]
      _ = (a ++ ['/'] ++ List.intercalate ['/'] (b :: v)) ++ '/' :: t := by simp
      _ = List.intercalate ['/'] (a :: b :: v) ++ '/' :: t := by
          rw [intercalate_cons_cons ['/'] a b v]

theorem renderPath_concat (bs : List Seg) (t : Seg) (hbs : bs ≠ []) :
    renderPath (bs ++ [t]) = renderPath bs ++ '/' :: t := by
  cases bs with
  | nil => simp at hbs
  | cons a u =>
    unfold renderPath
    rw [intercalate_concat a u t]
    rfl

/-- C10: composing the parent/basename decomposition with join is the
identity up to normalization: for every input path `p`,
`joinPath (parentPath p) (basename p) = normalizePath p`. -/
theorem C10_join_parent_basename (p : List Char) :
    joinPath [parentPath p, basename p] = normalizePath p := by
  have hsegs : ∀ s ∈ normLoop (segmentsOf p) [], NormalSeg s :=
    normLoop_normal (by simp) (fun s hs => validSeg_of_mem_segmentsOf hs)
  rcases List.eq_nil_or_concat (normLoop (segmentsOf p) []) with hnil | ⟨bs, t, hcat⟩
  · have hnp : normalizePath p = ['/'] := by
      show renderPath (normLoop (segmentsOf p) []) = ['/']
      rw [hnil]
      rfl
    simp only [joinPath, parentPath, basename]
    rw [hnp]
    decide
  · rw [List.concat_eq_append] at hcat
    have ht : NormalSeg t := hsegs t (by rw [hcat]; simp)
    have hbsN : ∀ s ∈ bs, NormalSeg s :=
      fun s hs => hsegs s (by rw [hcat]; exact List.mem_append_left _ hs)
    have hslash : '/' ∉ t := ht.1.2
    by_cases hbse : bs = []
    · subst hbse
      have hnp : normalizePath p = '/' :: t := by
        show renderPath (normLoop (segmentsOf p) []) = '/' :: t
        rw [hcat]
        simp [renderPath, List.intercalate]
      have hlsi : lastSlashIdx ('/' :: t) = 0 := by
        simp only [lastSlashIdx, lastSlashIdx_no_slash hslash]
        norm_num
      have hpar : parentPath p = ['/'] := by
        simp only [parentPath]
        rw [hnp, hlsi]
        norm_num
      have hbn : basename p = t := by
        simp only [basename]
        rw [hnp, hlsi]
        rfl
      rw [hpar, hbn]
      simp only [joinPath]
      rw [intercalate_pair]
      show renderPath (normLoop (segmentsOf ('/' :: '/' :: t)) []) = _
      rw [segmentsOf_slash_cons, segmentsOf_slash_cons, segmentsOf_single ht.1,
        normLoop_fixpoint _ _ (by simpa using ⟨ht.2.1, ht.2.2⟩), hnp]
      simp [renderPath, List.intercalate]
    · have hbsne : bs ≠ [] := hbse
      have hnp : normalizePath p = renderPath bs ++ '/' :: t := by
        show renderPath (normLoop (segmentsOf p) []) = _
        rw [hcat]
        exact renderPath_concat bs t hbsne
      have hlsi : lastSlashIdx (renderPath bs ++ '/' :: t)
          = ((renderPath bs).length : Int) :=
        lastSlashIdx_append_seg _ hslash
      have hlpos : ¬ ((renderPath bs).length : Int) ≤ 0 := by
        simp only [renderPath, List.length_cons]
        push_cast
        omega
      have hpar : parentPath p = renderPath bs := by
        simp only [parentPath]
        rw [hnp, hlsi, if_neg hlpos, Int.toNat_natCast]
        exact List.take_left _ _
      have hbn : basename p = t := by
        simp only [basename]
        rw [hnp, hlsi]
        have h1 : (((renderPath bs).length : Int) + 1).toNat
            = (renderPath bs ++ ['/']).length := by
          simp
        rw [h1, show renderPath bs ++ '/' :: t = (renderPath bs ++ ['/']) ++ t by simp]
        exact List.drop_left _ _
      rw [hpar, hbn]
      simp only [joinPath]
      rw [intercalate_pair]
      show renderPath (normLoop (segmentsOf (renderPath bs ++ '/' :: t)) []) = _
      rw [segmentsOf_render_append bs t (fun s hs => (hbsN s hs).1),
        segmentsOf_single ht.1]
      rw [normLoop_fixpoint _ _ (by
        intro s hs
        rcases List.mem_append.mp hs with h | h
        · exact ⟨(hbsN s h).2.1, (hbsN s h).2.2⟩
        · rcases List.mem_singleton.mp h with rfl
          exact ⟨ht.2.1, ht.2.2⟩)]
      rw [hnp]
      simpa using renderPath_concat bs t hbsne

theorem renderPath_ne_root {a : Seg} (t : List Seg) (ha : a ≠ []) :
    renderPath (a :: t) ≠ ['/'] := by
  unfold renderPath
  intro h
  have h2 : List.intercalate ['/'] (a :: t) = [] := by
    simpa using h
  cases t with
  | nil =>
    rw [show List.intercalate ['/'] [a] = a by simp [List.intercalate]] at h2
    exact ha h2
  | cons b v =>
    rw [intercalate_cons_cons] at h2
    rcases List.append_eq_nil.mp (List.append_eq_nil.mp h2).1 with ⟨h3, _⟩
    exact ha h3

theorem intercalate_flatSegs (a : Seg) (t : List Seg) :
    List.intercalate ['/'] (a :: t) ++ ['/'] = flatSegs (a :: t) := by
  induction t generalizing a with
  | nil =>
    rw [show List.intercalate ['/'] [a] = a by simp [List.intercalate]]
    rfl
  | cons b v ih =>
    rw [intercalate_cons_cons]
    show a ++ ['/'] ++ List.intercalate ['/'] (b :: v) ++ ['/'] = a ++ '/' :: flatSegs (b :: v)
    rw [List.append_assoc, ih b]
    simp

theorem withSlash_eq_flat {P : List Seg} (hP : ∀ s ∈ P, ValidSeg s) :
    (if renderPath P = ['/'] then ['/'] else renderPath P ++ ['/'])
      = '/' :: flatSegs P := by
  cases P with
  | nil => rfl
  | cons a t =>
    rw [if_neg (renderPath_ne_root t (hP a (by simp)).1)]
    show ('/' :: List.intercalate ['/'] (a :: t)) ++ ['/'] = _
    rw [List.cons_append, intercalate_flatSegs]

theorem seg_cancel {a b x y : List Char} (ha : '/' ∉ a) (hb : '/' ∉ b)
    (h : a ++ '/' :: x <+: b ++ '/' :: y) : a = b ∧ x <+: y := by
  induction a generalizing b with
  | nil =>
    cases b with
    | nil =>
      refine ⟨rfl, ?_⟩
      have h2 : '/' :: x <+: '/' :: y := by simpa using h
      exact (List.cons_prefix_cons.mp h2).2
    | cons c b2 =>
      simp only [List.nil_append, List.cons_append] at h
      have hc := (List.cons_prefix_cons.mp h).1
      exact absurd (hc ▸ List.mem_cons_self c b2) hb
  | cons c a2 ih =>
    cases b with
    | nil =>
      simp only [List.cons_append, List.nil_append] at h
      have hc := (List.cons_prefix_cons.mp h).1
      exact absurd (hc ▸ List.mem_cons_self c a2) ha
    | cons e b2 =>
      simp only [List.cons_append] at h
      have hce := (List.cons_prefix_cons.mp h).1
      have htl := (List.cons_prefix_cons.mp h).2
      have h2 := ih (fun hm => ha (List.mem_cons_of_mem _ hm))
        (fun hm => hb (List.mem_cons_of_mem _ hm)) htl
      exact ⟨by rw [hce, h2.1], h2.2⟩

theorem flatSegs_append (P R : List Seg) :
    flatSegs (P ++ R) = flatSegs P ++ flatSegs R := by
  induction P with
  | nil => rfl
  | cons a t ih =>
    show a ++ '/' :: flatSegs (t ++ R) = (a ++ '/' :: flatSegs t) ++ flatSegs R
    rw [ih]
    simp

theorem flat_prefix_iff {P D : List Seg} (hP : ∀ s ∈ P, ValidSeg s)
    (hD : ∀ s ∈ D, ValidSeg s) :
    flatSegs P <+: flatSegs D ↔ P <+: D := by
  constructor
  · intro h
    induction P generalizing D with
    | nil => exact List.nil_prefix
    | cons a P2 ih =>
      cases D with
      | nil =>
        exact absurd (List.prefix_nil.mp h) (by simp [flatSegs])
      | cons b D2 =>
        have hc := seg_cancel (hP a (by simp)).2 (hD b (by simp)).2 h
        have h3 := ih (fun s hs => hP s (List.mem_cons_of_mem _ hs))
          (fun s hs => hD s (List.mem_cons_of_mem _ hs)) hc.2
        rw [hc.1]
        exact List.cons_prefix_cons.mpr ⟨rfl, h3⟩
  · intro h
    rcases h with ⟨R, rfl⟩
    rw [flatSegs_append]
    exact List.prefix_append _ _

theorem renderPath_inj {P D : List Seg} (hP : ∀ s ∈ P, ValidSeg s)
    (hD : ∀ s ∈ D, ValidSeg s) (h : renderPath P = renderPath D) : P = D := by
  have h1 := segmentsOf_renderPath P hP
  have h2 := segmentsOf_renderPath D hD
  rw [← h1, ← h2, h]

theorem fireMatch_iff {P D : List Seg} (hP : ∀ s ∈ P, ValidSeg s)
    (hD : ∀ s ∈ D, ValidSeg s) :
    fireMatch (renderPath P) (renderPath D) = true ↔ P <+: D := by
  unfold fireMatch
  by_cases he : renderPath P = renderPath D
  · rw [if_pos he]
    have : P = D := renderPath_inj hP hD he
    subst this
    simp
  · rw [if_neg he]
    simp only []
    rw [ List.isPrefixOf_iff_prefix, withSlash_eq_flat hP, withSlash_eq_flat hD]
    constructor
    · intro h
      exact (flat_prefix_iff hP hD).mp (List.cons_prefix_cons.mp h).2
    · intro h
      exact List.cons_prefix_cons.mpr ⟨rfl, (flat_prefix_iff hP hD).mpr h⟩

/-- C6: local notification dispatch delivers an event batch for directory
`D` to exactly those subscribers whose registered path `P` equals `D` or is
a segment-wise prefix of it — so a subscriber at `/a` sees events under
`/a/b`, while a subscriber at `/foo` sees nothing for `/foobar`. -/
theorem C6_dispatch_prefix_exact (subs : List (List Seg × Nat)) (D : List Seg)
    (k : Nat) (hsubs : ∀ pr ∈ subs, ∀ s ∈ pr.1, ValidSeg s)
    (hD : ∀ s ∈ D, ValidSeg s) :
    k ∈ fireLocalTargets subs D ↔ ∃ P, (P, k) ∈ subs ∧ P <+: D := by
  unfold fireLocalTargets
  rw [List.mem_map]
  constructor
  · rintro ⟨pr, hpr, hk⟩
    rw [List.mem_filter] at hpr
    refine ⟨pr.1, ?_, (fireMatch_iff (hsubs pr hpr.1) hD).mp hpr.2⟩
    have : pr = (pr.1, k) := by
      rcases pr with ⟨prw, prk⟩
      simp only at hk
      rw [hk]
    rw [← this]
    exact hpr.1
  · rintro ⟨P, hmem, hpre⟩
    refine ⟨(P, k), List.mem_filter.mpr ⟨hmem, ?_⟩, rfl⟩
    exact (fireMatch_iff (hsubs (P, k) hmem) hD).mpr hpre

/-- Witness for C6 at a concrete registry: a subscriber at `/a` and one at
`/foo`, with an event fired for `/a/b`. -/
theorem C6_dispatch_prefix_exact_witness :
    (0 ∈ fireLocalTargets [([['a']], 0), ([['f', 'o', 'o']], 1)] [['a'], ['b']]
      ↔ ∃ P, (P, 0) ∈ [([['a']], 0), ([['f', 'o', 'o']], 1)] ∧ P <+: [['a'], ['b']]) :=
  C6_dispatch_prefix_exact [([['a']], 0), ([['f', 'o', 'o']], 1)] [['a'], ['b']] 0
    (by decide) (by decide)

/-!
Concrete evaluations of the operation model, used as counterexamples and as
the code-bug exhibit.
-/

/-- C3 exhibit: from a freshly seeded root, `mkdir('/d')` followed by the
successful non-recursive `remove('/d')` leaves the cached counters at one
directory while a full walk counts zero — the incremental accounting has
drifted, because `remove` applies a zero delta for a directory removed
without the `recursive` option. -/
theorem C3_usage_drift_after_plain_remove :
    let s0 : Node := .dir (some ⟨⟨true, true⟩, [], some ⟨0, 0, 0⟩⟩) .nil
    let r1 := mkdirRun ['/'] ['/', 'd'] false none 100 s0
    let r2 := removeRun ['/'] ['/', 'd'] false false 101 r1.state
    r1.isOk = true ∧ r2.isOk = true ∧
    (usageRun false r2.state).valOf = some ⟨0, 0, 1⟩ ∧
    (usageRun true r2.state).valOf = some ⟨0, 0, 0⟩ :=
  ⟨rfl, rfl, rfl, rfl⟩

/-- C5 counterexample: with the root directory's write flag cleared,
`mkdir` with the `recursive` option still resolves — it performs no
permission check at all — refuting the claim that every mkdir form rejects
with PermissionDenied. -/
theorem C5_counterexample_recursive_mkdir :
    let sW : Node := .dir (some ⟨⟨true, false⟩, [], none⟩) .nil
    let r := mkdirRun ['/'] ['/', 'd'] true none 100 sW
    writePermAt sW [] = false ∧ r.isOk = true ∧ r.errOf = none :=
  ⟨rfl, rfl, rfl⟩

/-- C8 counterexample: a mount based at `/sub` asked to `remove('/')` —
a path resolving to its own base — actually deletes the base directory
from the parent and emits a delete notification, refuting the claimed
universal no-op. -/
theorem C8_counterexample_submount_removes_base :
    let s8 : Node := .dir
      (some ⟨⟨true, true⟩, [(['s', 'u', 'b'], ⟨.directory, none, 0, 0, []⟩)],
        some ⟨0, 0, 1⟩⟩)
      (.cons ['s', 'u', 'b'] (.dir none .nil) .nil)
    let r := removeRun ['/', 's', 'u', 'b'] ['/'] false false 100 s8
    r.isOk = true ∧ r.notifs.length = 1 ∧
    (getNode s8 [['s', 'u', 'b']]).isSome = true ∧
    (getNode r.state [['s', 'u', 'b']]).isSome = false :=
  ⟨rfl, rfl, rfl, rfl⟩

/-- C9 counterexample: `writeFile` on a path resolving to the mount root
passes the empty basename to the backend's `getFileHandle` unguarded, so a
backend `TypeError` — none of the six defined kinds — escapes to the
caller. -/
theorem C9_counterexample_writeFile_root :
    let s0 : Node := .dir (some ⟨⟨true, true⟩, [], some ⟨0, 0, 0⟩⟩) .nil
    (writeFileRun ['/'] ['/'] [1, 2, 3] [] 5 s0).errOf = some .backendErr ∧
    isDefinedKind .backendErr = false :=
  ⟨rfl, rfl⟩

/-!
Toolkit lemmas about association lists, `Children`, and tree navigation.
-/

theorem alGet_set_self {β : Type} (l : List (FsName × β)) (k : FsName) (v : β) :
    alGet (alSet l k v) k = some v := by
  induction l with
  | nil => simp [alSet, alGet]
  | cons kv rest ih =>
    rcases kv with ⟨k0, v0⟩
    by_cases h : k0 = k
    · simp [alSet, alGet, h]
    · simp [alSet, alGet, h, ih]

theorem alGet_set_ne {β : Type} (l : List (FsName × β)) (k : FsName) (v : β)
    {k' : FsName} (h : k' ≠ k) : alGet (alSet l k v) k' = alGet l k' := by
  induction l with
  | nil =>
    show (if k = k' then some v else alGet [] k') = none
    rw [if_neg (fun he => h he.symm)]
    rfl
  | cons kv rest ih =>
    rcases kv with ⟨k0, v0⟩
    by_cases h0 : k0 = k
    · show alGet (if k0 = k then (k0, v) :: rest else (k0, v0) :: alSet rest k v) k'
        = (if k0 = k' then some v0 else alGet rest k')
      rw [if_pos h0]
      show (if k0 = k' then some v else alGet rest k')
        = (if k0 = k' then some v0 else alGet rest k')
      subst h0
      rw [if_neg (fun he => h he.symm), if_neg (fun he => h he.symm)]
    · show alGet (if k0 = k then (k0, v) :: rest else (k0, v0) :: alSet rest k v) k'
        = (if k0 = k' then some v0 else alGet rest k')
      rw [if_neg h0]
      show (if k0 = k' then some v0 else alGet (alSet rest k v) k')
        = (if k0 = k' then some v0 else alGet rest k')
      rw [ih]

theorem alGet_modify_self {β : Type} (l : List (FsName × β)) (k : FsName)
    (f : β → β) : alGet (alModify l k f) k = (alGet l k).map f := by
  induction l with
  | nil => simp [alModify, alGet]
  | cons kv rest ih =>
    rcases kv with ⟨k0, v0⟩
    by_cases h : k0 = k
    · simp [alModify, alGet, h]
    · simp [alModify, alGet, h, ih]

theorem alGet_modify_ne {β : Type} (l : List (FsName × β)) (k : FsName)
    (f : β → β) {k' : FsName} (h : k' ≠ k) :
    alGet (alModify l k f) k' = alGet l k' := by
  induction l with
  | nil => rfl
  | cons kv rest ih =>
    rcases kv with ⟨k0, v0⟩
    by_cases h0 : k0 = k
    · show alGet (if k0 = k then (k0, f v0) :: rest else (k0, v0) :: alModify rest k f) k'
        = (if k0 = k' then some v0 else alGet rest k')
      rw [if_pos h0]
      show (if k0 = k' then some (f v0) else alGet rest k')
        = (if k0 = k' then some v0 else alGet rest k')
      subst h0
      rw [if_neg (fun he => h he.symm), if_neg (fun he => h he.symm)]
    · show alGet (if k0 = k then (k0, f v0) :: rest else (k0, v0) :: alModify rest k f) k'
        = (if k0 = k' then some v0 else alGet rest k')
      rw [if_neg h0]
      show (if k0 = k' then some v0 else alGet (alModify rest k f) k')
        = (if k0 = k' then some v0 else alGet rest k')
      rw [ih]

theorem toList_set : ∀ (cs : Children) (k : FsName) (v : Node),
    (Children.set cs k v).toList = alSet cs.toList k v
  | .nil, k, v => by simp [Children.set, Children.toList, alSet]
  | .cons n c rest, k, v => by
    by_cases h : n = k
    · simp [Children.set, Children.toList, alSet, h]
    · simp [Children.set, Children.toList, alSet, h, toList_set rest k v]

theorem toList_modify : ∀ (cs : Children) (k : FsName) (f : Node → Node),
    (Children.modify cs k f).toList = alModify cs.toList k f
  | .nil, _, _ => by simp [Children.modify, Children.toList, alModify]
  | .cons n c rest, k, f => by
    by_cases h : n = k
    · simp [Children.modify, Children.toList, alModify, h]
    · simp [Children.modify, Children.toList, alModify, h, toList_modify rest k f]

theorem toList_del : ∀ (cs : Children) (k : FsName),
    (Children.del cs k).toList = alRemove cs.toList k
  | .nil, _ => by simp [Children.del, Children.toList, alRemove]
  | .cons n c rest, k => by
    by_cases h : n = k
    · simp [Children.del, Children.toList, alRemove, h, List.filter, toList_del rest k]
    · simp [Children.del, Children.toList, alRemove, h, List.filter, toList_del rest k]

theorem modify_of_missing : ∀ (cs : Children) (k : FsName) (f : Node → Node),
    alGet cs.toList k = none → Children.modify cs k f = cs
  | .nil, _, _, _ => rfl
  | .cons n c rest, k, f, h => by
    by_cases h0 : n = k
    · simp [Children.toList, alGet, h0] at h
    · simp [Children.toList, alGet, h0] at h
      simp [Children.modify, h0, modify_of_missing rest k f h]

theorem modify_id_at : ∀ (cs : Children) (k : FsName) (f : Node → Node)
    {c : Node}, alGet cs.toList k = some c → f c = c →
    Children.modify cs k f = cs
  | .nil, k, f, c, h, _ => by simp [Children.toList, alGet] at h
  | .cons n c0 rest, k, f, c, h, hf => by
    by_cases h0 : n = k
    · simp [Children.toList, alGet, h0] at h
      simp [Children.modify, h0, h ▸ hf]
    · simp [Children.toList, alGet, h0] at h
      simp [Children.modify, h0, modify_id_at rest k f h hf]

theorem getNode_dir_cons (m : Option DirMeta) (cs : Children) (seg : FsName)
    (rest : List FsName) :
    getNode (.dir m cs) (seg :: rest)
      = match alGet cs.toList seg with
        | some c => getNode c rest
        | none => none := rfl

theorem getNode_append (s : Node) (p q : List FsName) :
    getNode s (p ++ q) = (getNode s p).bind (fun n => getNode n q) := by
  induction p generalizing s with
  | nil => simp [getNode]
  | cons a rest ih =>
    cases s with
    | file b => simp [getNode]
    | dir m cs =>
      rw [List.cons_append, getNode_dir_cons, getNode_dir_cons]
      cases alGet cs.toList a with
      | none => simp
      | some c => simpa using ih c

theorem getNode_updAt_same {s : Node} {p : List FsName} {n : Node}
    (h : getNode s p = some n) (f : Node → Node) :
    getNode (updAt s p f) p = some (f n) := by
  induction p generalizing s with
  | nil =>
    have h2 : s = n := by simpa [getNode] using h
    subst h2
    simp [getNode, updAt]
  | cons a rest ih =>
    cases s with
    | file b => simp [getNode] at h
    | dir m cs =>
      rw [getNode_dir_cons] at h
      cases hc : alGet cs.toList a with
      | none => rw [hc] at h; simp at h
      | some c =>
        rw [hc] at h
        show getNode (.dir m (cs.modify a fun c => updAt c rest f)) (a :: rest) = some (f n)
        rw [getNode_dir_cons, toList_modify, alGet_modify_self, hc]
        exact ih h

theorem updAt_of_missing {s : Node} {p : List FsName}
    (h : getNode s p = none) (f : Node → Node) : updAt s p f = s := by
  induction p generalizing s with
  | nil => simp [getNode] at h
  | cons a rest ih =>
    cases s with
    | file b => rfl
    | dir m cs =>
      rw [getNode_dir_cons] at h
      show Node.dir m (cs.modify a fun c => updAt c rest f) = .dir m cs
      cases hc : alGet cs.toList a with
      | none => rw [modify_of_missing cs a _ hc]
      | some c =>
        rw [hc] at h
        rw [modify_id_at cs a _ hc (ih h)]

theorem childrenOf_withMeta (m : Option DirMeta) (d : Node) :
    (Node.withMeta m d).childrenOf = d.childrenOf := by
  cases d <;> rfl

theorem getNode_withMeta_cons (m : Option DirMeta) (s : Node) (a : FsName)
    (r : List FsName) :
    getNode (Node.withMeta m s) (a :: r) = getNode s (a :: r) := by
  cases s <;> rfl

theorem applyUsage_shape (s : Node) (d1 d2 d3 : Int) :
    applyUsage s d1 d2 d3 = s ∨
    ∃ u2, applyUsage s d1 d2 d3
      = Node.withMeta (some { effMeta s with usage := some u2 }) s := by
  cases hu : (effMeta s).usage with
  | none => left; simp [applyUsage, hu]
  | some u =>
    right
    refine ⟨⟨clamp0 (u.totalSize + d1), clamp0 (u.fileCount + d2),
      clamp0 (u.directoryCount + d3)⟩, ?_⟩
    simp [applyUsage, hu]

theorem getNode_applyUsage_cons (s : Node) (d1 d2 d3 : Int) (a : FsName)
    (r : List FsName) :
    getNode (applyUsage s d1 d2 d3) (a :: r) = getNode s (a :: r) := by
  rcases applyUsage_shape s d1 d2 d3 with h | ⟨u2, h⟩
  · rw [h]
  · rw [h, getNode_withMeta_cons]

theorem effMeta_applyUsage_perm (s : Node) (d1 d2 d3 : Int) :
    (effMeta (applyUsage s d1 d2 d3)).permissions = (effMeta s).permissions := by
  cases hu : (effMeta s).usage with
  | none => simp [applyUsage, hu]
  | some u =>
    cases s with
    | file b => simp [effMeta, Node.metaOf, defaultDirMeta] at hu
    | dir m cs =>
      simp only [effMeta, Node.metaOf] at hu
      simp [applyUsage, hu, Node.withMeta, effMeta, Node.metaOf]

theorem effMeta_applyUsage_children (s : Node) (d1 d2 d3 : Int) :
    (effMeta (applyUsage s d1 d2 d3)).children = (effMeta s).children := by
  cases hu : (effMeta s).usage with
  | none => simp [applyUsage, hu]
  | some u =>
    cases s with
    | file b => simp [effMeta, Node.metaOf, defaultDirMeta] at hu
    | dir m cs =>
      simp only [effMeta, Node.metaOf] at hu
      simp [applyUsage, hu, Node.withMeta, effMeta, Node.metaOf]

theorem childrenOf_applyUsage (s : Node) (d1 d2 d3 : Int) :
    (applyUsage s d1 d2 d3).childrenOf = s.childrenOf := by
  rcases applyUsage_shape s d1 d2 d3 with h | ⟨u2, h⟩
  · rw [h]
  · rw [h, childrenOf_withMeta]

theorem resolvePath_render (B p : List Char) :
    ∃ R : List Seg, resolvePath B p = renderPath R ∧ ∀ s ∈ R, NormalSeg s := by
  refine ⟨_, rfl, ?_⟩
  exact resolveLoop_normal (by simp) (fun s hs => validSeg_of_mem_segmentsOf hs)

theorem normalizePath_of_render {R : List Seg} (h : ∀ s ∈ R, NormalSeg s) :
    normalizePath (renderPath R) = renderPath R := by
  unfold normalizePath
  rw [segmentsOf_renderPath R (fun s hs => (h s hs).1),
    normLoop_fixpoint R [] (fun s hs => ⟨(h s hs).2.1, (h s hs).2.2⟩)]
  rfl

theorem render_decomp {R : List Seg} (h : ∀ s ∈ R, NormalSeg s) :
    (R = [] ∧ basename (renderPath R) = []) ∨
    (∃ bs t, R = bs ++ [t] ∧
      segmentsOf (parentPath (renderPath R)) = bs ∧
      basename (renderPath R) = t) := by
  rcases List.eq_nil_or_concat R with hnil | ⟨bs, t, hcat⟩
  · subst hnil
    left
    exact ⟨rfl, rfl⟩
  · rw [List.concat_eq_append] at hcat
    subst hcat
    right
    have ht : NormalSeg t := h t (by simp)
    have hbsN : ∀ s ∈ bs, NormalSeg s := fun s hs => h s (List.mem_append_left _ hs)
    have hnorm : normalizePath (renderPath (bs ++ [t])) = renderPath (bs ++ [t]) :=
      normalizePath_of_render h
    refine ⟨bs, t, rfl, ?_, ?_⟩
    · by_cases hbse : bs = []
      · subst hbse
        have habs : renderPath ([] ++ [t]) = '/' :: t := by
          simp [renderPath, List.intercalate]
        have hlsi : lastSlashIdx ('/' :: t) = 0 := by
          simp only [lastSlashIdx, lastSlashIdx_no_slash ht.1.2]
          norm_num
        simp only [parentPath]
        rw [hnorm, habs, hlsi]
        norm_num
        rfl
      · have habs : renderPath (bs ++ [t]) = renderPath bs ++ '/' :: t :=
          renderPath_concat bs t hbse
        have hlsi : lastSlashIdx (renderPath bs ++ '/' :: t)
            = ((renderPath bs).length : Int) := lastSlashIdx_append_seg _ ht.1.2
        have hlpos : ¬ ((renderPath bs).length : Int) ≤ 0 := by
          simp only [renderPath, List.length_cons]
          push_cast
          omega
        simp only [parentPath]
        rw [hnorm, habs, hlsi, if_neg hlpos, Int.toNat_natCast, List.take_left]
        exact segmentsOf_renderPath bs (fun s hs => (hbsN s hs).1)
    · by_cases hbse : bs = []
      · subst hbse
        have habs : renderPath ([] ++ [t]) = '/' :: t := by
          simp [renderPath, List.intercalate]
        have hlsi : lastSlashIdx ('/' :: t) = 0 := by
          simp only [lastSlashIdx, lastSlashIdx_no_slash ht.1.2]
          norm_num
        simp only [basename]
        rw [hnorm, habs, hlsi]
        rfl
      · have habs : renderPath (bs ++ [t]) = renderPath bs ++ '/' :: t :=
          renderPath_concat bs t hbse
        have hlsi : lastSlashIdx (renderPath bs ++ '/' :: t)
            = ((renderPath bs).length : Int) := lastSlashIdx_append_seg _ ht.1.2
        simp only [basename]
        rw [hnorm, habs, hlsi]
        have h1 : (((renderPath bs).length : Int) + 1).toNat
            = (renderPath bs ++ ['/']).length := by
          simp
        rw [h1, show renderPath bs ++ '/' :: t = (renderPath bs ++ ['/']) ++ t by simp]
        exact List.drop_left _ _

theorem validName_of_normal {t : Seg} (h : NormalSeg t) : validName t = true := by
  simp only [validName, decide_eq_true_eq]
  exact ⟨h.1.1, h.2.1, h.2.2, h.1.2⟩

theorem metaOf_eq_sidecar_root (s : Node) : Node.metaOf s = sidecarAt s [] := by
  cases s <;> rfl

theorem sidecarAt_file (b : Bytes) (q : List FsName) :
    sidecarAt (.file b) q = none := by
  cases q <;> rfl

theorem sidecarAt_dir_cons (m : Option DirMeta) (cs : Children) (b : FsName)
    (r : List FsName) :
    sidecarAt (.dir m cs) (b :: r)
      = match alGet cs.toList b with
        | some c => sidecarAt c r
        | none => none := by
  unfold sidecarAt
  rw [getNode_dir_cons]
  cases alGet cs.toList b <;> rfl

theorem sidecarAt_setFile (p : List FsName) (s : Node) (name : FsName)
    (data : Bytes)
    (h : ∀ m2 cs2, (getNode s p).bind (fun d => alGet (Node.childrenOf d) name)
      ≠ some (.dir m2 cs2)) :
    ∀ q, sidecarAt (updAt s p (Node.setChild name (.file data))) q
      = sidecarAt s q := by
  induction p generalizing s with
  | nil =>
    intro q
    cases s with
    | file b => rfl
    | dir m cs =>
      show sidecarAt (.dir m (cs.set name (.file data))) q = _
      cases q with
      | nil => rfl
      | cons a r =>
        rw [sidecarAt_dir_cons, sidecarAt_dir_cons, toList_set]
        by_cases ha : a = name
        · subst ha
          rw [alGet_set_self]
          have h2 := h
          simp only [getNode, Option.bind, Node.childrenOf] at h2
          cases hg : alGet cs.toList a with
          | none => simp [sidecarAt_file]
          | some c =>
            cases c with
            | file b2 => simp [sidecarAt_file]
            | dir m2 cs2 => exact absurd hg (by intro hgg; exact h2 m2 cs2 (by rw [hgg]))
        · rw [alGet_set_ne _ _ _ ha]
  | cons a rest ih =>
    intro q
    cases s with
    | file b => rfl
    | dir m cs =>
      show sidecarAt (.dir m (cs.modify a fun c => updAt c rest
        (Node.setChild name (.file data)))) q = _
      cases q with
      | nil => rfl
      | cons b r =>
        rw [sidecarAt_dir_cons, sidecarAt_dir_cons, toList_modify]
        by_cases hb : b = a
        · subst hb
          rw [alGet_modify_self]
          cases hg : alGet cs.toList b with
          | none => rfl
          | some c =>
            have h2 : ∀ m2 cs2,
                (getNode c rest).bind (fun d => alGet (Node.childrenOf d) name)
                  ≠ some (.dir m2 cs2) := by
              intro m2 cs2
              have h3 := h m2 cs2
              rw [getNode_dir_cons, hg] at h3
              exact h3
            simpa using ih c h2 r
        · rw [alGet_modify_ne _ _ _ hb]

/-- C8 (amended): remove of a path resolving to a basename-less absolute
path — which only a mount based at the tree root can produce — is a true
no-op: it resolves, changes nothing, and emits no notification. Mounts with
a deeper base remove their base directory like any other entry. -/
theorem C8_remove_root_resolving_noop (base path : List Char)
    (recursive force : Bool) (now : Int) (s : Node)
    (h : basename (resolvePath base path) = []) :
    removeRun base path recursive force now s = .ok () s [] := by
  simp [removeRun, h]

/-- Witness for the amended C8 at the root mount. -/
theorem C8_remove_root_resolving_noop_witness :
    removeRun ['/'] ['/'] false false 7 (.dir none .nil)
      = .ok () (.dir none .nil) [] :=
  C8_remove_root_resolving_noop ['/'] ['/'] false false 7 (.dir none .nil) rfl

/-- C7: oversized user metadata. `setMeta` validates before anything else,
so it rejects with MetadataSizeExceeded leaving the state untouched and no
notification fired. `writeFile` validates after the backend content write
but before any record or counter mutation: with the parent present and
writable, a valid basename, and the target not a directory, it rejects
with MetadataSizeExceeded in a state whose every sidecar record — and
hence the cached usage block — is unchanged. -/
theorem C7_metadata_size_guard :
    (∀ (base path : List Char) (um : UserMeta) (now : Int) (s : Node),
      65536 < metaBytes um →
      setMetaRun base path um now s = .fail (.metadataSize path) s []) ∧
    (∀ (base path : List Char) (data : Bytes) (um : UserMeta) (now : Int)
      (s : Node) (d : Node),
      65536 < metaBytes um → um ≠ [] →
      getDirNode s (segmentsOf (parentPath (resolvePath base path))) = some d →
      (effMeta d).permissions.write = true →
      validName (basename (resolvePath base path)) = true →
      (∀ m2 cs2, alGet (Node.childrenOf d) (basename (resolvePath base path))
        ≠ some (.dir m2 cs2)) →
      ∃ s1, writeFileRun base path data um now s = .fail (.metadataSize path) s1 []
        ∧ (∀ q, sidecarAt s1 q = sidecarAt s q) ∧ cachedUsage s1 = cachedUsage s) := by
  constructor
  · intro base path um now s hsize
    simp [setMetaRun, hsize]
  · intro base path data um now s d hsize hne hd hw hvn hnotdir
    have hdn : getNode s (segmentsOf (parentPath (resolvePath base path)))
        = some d := by
      unfold getDirNode at hd
      cases hg : getNode s (segmentsOf (parentPath (resolvePath base path))) with
      | none => rw [hg] at hd; simp at hd
      | some n =>
        rw [hg] at hd
        cases n with
        | file b => simp at hd
        | dir m cs => simpa [← hd] using hg
    have hside : ∀ q,
        sidecarAt (updAt s (segmentsOf (parentPath (resolvePath base path)))
          (Node.setChild (basename (resolvePath base path)) (.file data))) q
        = sidecarAt s q := by
      refine sidecarAt_setFile _ s _ data ?_
      intro m2 cs2
      rw [hdn]
      simpa using hnotdir m2 cs2
    refine ⟨_, ?_, hside, ?_⟩
    · simp only [writeFileRun, writeContent, hd, hw, if_true, hvn]
      rw [if_pos ⟨hne, hsize⟩]
    · show ((Node.metaOf _).getD defaultDirMeta).usage = _
      rw [metaOf_eq_sidecar_root, hside [], ← metaOf_eq_sidecar_root]
      rfl

/-- Witness for C7: an oversized metadata map rejected by `setMeta`. -/
theorem C7_metadata_size_guard_witness :
    setMetaRun ['/'] ['/', 'f'] (List.replicate 9000 (String.mk ['k'], String.mk ['v'])) 3
      (.dir none .nil)
      = .fail (.metadataSize ['/', 'f']) (.dir none .nil) [] :=
  C7_metadata_size_guard.1 ['/'] ['/', 'f']
    (List.replicate 9000 (String.mk ['k'], String.mk ['v'])) 3 (.dir none .nil)
    (by
      rw [show (9000 : Nat) = 8999 + 1 from rfl, List.replicate_succ]
      have hk : (String.mk ['k']).length = 1 := rfl
      have hv : (String.mk ['v']).length = 1 := rfl
      simp only [metaBytes, List.map_cons, List.map_replicate, List.sum_cons,
        List.sum_replicate, List.length_cons, List.length_replicate, smul_eq_mul,
        hk, hv]
      norm_num)

theorem getDirNode_eq_some {s : Node} {p : List FsName} {d : Node}
    (h : getDirNode s p = some d) :
    getNode s p = some d ∧ ∃ m cs, d = .dir m cs := by
  unfold getDirNode at h
  cases hg : getNode s p with
  | none => rw [hg] at h; simp at h
  | some n =>
    rw [hg] at h
    cases n with
    | file b => simp at h
    | dir m cs =>
      simp only [Option.some.injEq] at h
      exact ⟨congrArg some h, m, cs, h.symm⟩

theorem getDirNode_dir (m : Option DirMeta) (cs : Children) :
    getDirNode (.dir m cs) [] = some (.dir m cs) := rfl

theorem validName_ne_nil {n : FsName} (h : validName n = true) : n ≠ [] := by
  simp only [validName, decide_eq_true_eq] at h
  exact h.1

theorem getDirNode_applyUsage_cons (t : Node) (a b c : Int) (x : FsName)
    (r : List FsName) :
    getDirNode (applyUsage t a b c) (x :: r) = getDirNode t (x :: r) := by
  unfold getDirNode
  rw [getNode_applyUsage_cons]

theorem applyUsage_dir (m : Option DirMeta) (cs : Children) (a b c : Int) :
    ∃ m2, applyUsage (.dir m cs) a b c = .dir m2 cs := by
  rcases applyUsage_shape (.dir m cs) a b c with h | ⟨u2, h⟩
  · exact ⟨m, h⟩
  · exact ⟨_, h⟩

theorem dirFacts_applyUsage {t : Node} (a b c : Int) {p : List FsName} {d : Node}
    (h : getDirNode t p = some d) :
    ∃ d', getDirNode (applyUsage t a b c) p = some d' ∧
      (effMeta d').permissions = (effMeta d).permissions ∧
      (effMeta d').children = (effMeta d).children ∧
      Node.childrenOf d' = Node.childrenOf d := by
  cases p with
  | nil =>
    obtain ⟨ht, m, cs, rfl⟩ := getDirNode_eq_some h
    have ht2 : t = .dir m cs := by simpa [getNode] using ht
    subst ht2
    obtain ⟨m2, hm2⟩ := applyUsage_dir m cs a b c
    refine ⟨applyUsage (.dir m cs) a b c, ?_, effMeta_applyUsage_perm _ _ _ _,
      effMeta_applyUsage_children _ _ _ _, childrenOf_applyUsage _ _ _ _⟩
    rw [hm2]
    exact getDirNode_dir m2 cs
  | cons x r =>
    exact ⟨d, by rw [getDirNode_applyUsage_cons]; exact h, rfl, rfl, rfl⟩

theorem getDirNode_of_getNode_dir {s : Node} {p : List FsName}
    {m : Option DirMeta} {cs : Children} (h : getNode s p = some (.dir m cs)) :
    getDirNode s p = some (.dir m cs) := by
  unfold getDirNode
  rw [h]

theorem writeContent_some {s : Node} {P : List FsName} {nm : FsName}
    {data : Bytes} {s1 : Node} (h : writeContent s P nm data = some s1) :
    s1 = updAt s P (Node.setChild nm (.file data)) ∧ validName nm = true := by
  unfold writeContent at h
  cases hg : getDirNode s P with
  | none => rw [hg] at h; simp at h
  | some d =>
    rw [hg] at h
    by_cases hv : validName nm = true
    · rw [hv] at h
      simp only [if_true] at h
      cases ha : alGet (Node.childrenOf d) nm with
      | none =>
        rw [ha] at h
        simp only [Option.some.injEq] at h
        exact ⟨h.symm, hv⟩
      | some c =>
        cases c with
        | file b =>
          rw [ha] at h
          simp only [Option.some.injEq] at h
          exact ⟨h.symm, hv⟩
        | dir m2 cs2 => rw [ha] at h; simp at h
    · rw [eq_false_of_ne_true hv] at h
      simp at h

theorem C2_cont (base path : List Char) (data : Bytes) (now2 : Int)
    (s S3 : Node) (m : Option DirMeta) (cs : Children) (M2 : DirMeta)
    (dT dF dD : Int)
    (hgn : getNode s (segmentsOf (parentPath (resolvePath base path)))
      = some (Node.dir m cs))
    (hvn : validName (basename (resolvePath base path)) = true)
    (hS3 : S3 = applyUsage
      (updAt (updAt s (segmentsOf (parentPath (resolvePath base path)))
          (Node.setChild (basename (resolvePath base path)) (.file data)))
        (segmentsOf (parentPath (resolvePath base path)))
        (Node.withMeta (some M2))) dT dF dD)
    (hMread : M2.permissions.read = true)
    (hMget : (alGet M2.children (basename (resolvePath base path))).map
        (fun c => c.size.getD 0) = some data.length) :
    readFileRun base path S3 = .ok data S3 [] ∧
    ∃ st, statRun base path now2 S3 = .ok st S3 [] ∧ st.size = data.length := by
  subst hS3
  have hs1 : getNode
      (updAt s (segmentsOf (parentPath (resolvePath base path)))
        (Node.setChild (basename (resolvePath base path)) (.file data)))
      (segmentsOf (parentPath (resolvePath base path)))
      = some (.dir m (Children.set cs (basename (resolvePath base path))
          (.file data))) :=
    getNode_updAt_same hgn _
  have hs2 : getNode
      (updAt (updAt s (segmentsOf (parentPath (resolvePath base path)))
          (Node.setChild (basename (resolvePath base path)) (.file data)))
        (segmentsOf (parentPath (resolvePath base path)))
        (Node.withMeta (some M2)))
      (segmentsOf (parentPath (resolvePath base path)))
      = some (.dir (some M2) (Children.set cs (basename (resolvePath base path))
          (.file data))) :=
    getNode_updAt_same hs1 _
  obtain ⟨d', hd', hp', hc', hcof'⟩ :=
    dirFacts_applyUsage dT dF dD (getDirNode_of_getNode_dir hs2)
  have hperm' : (effMeta d').permissions.read = true := by
    rw [hp']; exact hMread
  have hchild' : alGet (effMeta d').children (basename (resolvePath base path))
      = alGet M2.children (basename (resolvePath base path)) := by
    rw [hc']; rfl
  have hcof2 : Node.childrenOf d'
      = (Children.set cs (basename (resolvePath base path)) (.file data)).toList := by
    rw [hcof']; rfl
  have hnm : basename (resolvePath base path) ≠ [] := validName_ne_nil hvn
  constructor
  · simp only [readFileRun, getFileAt, hd', hperm', if_true, hvn, hcof2,
      toList_set, alGet_set_self]
  · cases hMg : alGet M2.children (basename (resolvePath base path)) with
    | none => rw [hMg] at hMget; simp at hMget
    | some c =>
      rw [hMg] at hMget
      simp at hMget
      refine ⟨⟨resolvePath base path, basename (resolvePath base path), c.type,
          c.size.getD 0, c.ctime, c.mtime, c.meta⟩, ?_, hMget⟩
      simp only [statRun, if_neg hnm, hd', hchild', hMg]

/-- C2 (amended): after a successful `writeFile(P, C)`, provided the parent
directory's read flag is set, `readFile(P)` returns exactly the written
bytes and `stat(P)` reports their length as the size. Without the read
proviso `readFile` rejects with PermissionDenied (see the counterexample). -/
theorem C2_write_read_roundtrip (base path : List Char) (data : Bytes)
    (um : UserMeta) (now now2 : Int) (s s' : Node) (evs : List Notification)
    (hw : writeFileRun base path data um now s = .ok () s' evs)
    (hread : readPermAt s (segmentsOf (parentPath (resolvePath base path))) = true) :
    readFileRun base path s' = .ok data s' [] ∧
    ∃ st, statRun base path now2 s' = .ok st s' [] ∧ st.size = data.length := by
  simp only [writeFileRun] at hw
  cases hgd : getDirNode s (segmentsOf (parentPath (resolvePath base path))) with
  | none => rw [hgd] at hw; exact absurd hw (by simp)
  | some d =>
  obtain ⟨hgn, m, cs, rfl⟩ := getDirNode_eq_some hgd
  simp only [hgd] at hw
  unfold readPermAt at hread
  simp only [hgd] at hread
  by_cases hperm : (effMeta (Node.dir m cs)).permissions.write = true
  · rw [if_pos hperm] at hw
    cases hwc : writeContent s (segmentsOf (parentPath (resolvePath base path)))
        (basename (resolvePath base path)) data with
    | none => rw [hwc] at hw; exact absurd hw (by simp)
    | some s1 =>
      simp only [hwc] at hw
      obtain ⟨hs1v, hvn⟩ := writeContent_some hwc
      subst hs1v
      by_cases hms : um ≠ [] ∧ 65536 < metaBytes um
      · rw [if_pos hms] at hw; exact absurd hw (by simp)
      · rw [if_neg hms] at hw
        have hs1 : getNode
            (updAt s (segmentsOf (parentPath (resolvePath base path)))
              (Node.setChild (basename (resolvePath base path)) (.file data)))
            (segmentsOf (parentPath (resolvePath base path)))
            = some (.dir m (Children.set cs (basename (resolvePath base path))
                (.file data))) :=
          getNode_updAt_same hgn _
        simp only [getDirNode_of_getNode_dir hs1] at hw
        injection hw with h0 hst hev
        subst hst
        refine C2_cont base path data now2 s _ m cs _ _ _ _ hgn hvn rfl hread ?_
        simp [alGet_set_self]
  · rw [if_neg hperm] at hw
    exact absurd hw (by simp)

/-- Witness for the amended C2: writing two bytes to `/f` on a fresh root
and reading them back. -/
theorem C2_write_read_roundtrip_witness :
    readFileRun ['/'] ['/', 'f']
        (.dir (some ⟨⟨true, true⟩, [(['f'], ⟨.file, some 2, 5, 5, []⟩)], none⟩)
          (.cons ['f'] (.file [1, 2]) .nil))
      = .ok [1, 2]
        (.dir (some ⟨⟨true, true⟩, [(['f'], ⟨.file, some 2, 5, 5, []⟩)], none⟩)
          (.cons ['f'] (.file [1, 2]) .nil)) [] ∧
    ∃ st, statRun ['/'] ['/', 'f'] 6
        (.dir (some ⟨⟨true, true⟩, [(['f'], ⟨.file, some 2, 5, 5, []⟩)], none⟩)
          (.cons ['f'] (.file [1, 2]) .nil))
      = .ok st
        (.dir (some ⟨⟨true, true⟩, [(['f'], ⟨.file, some 2, 5, 5, []⟩)], none⟩)
          (.cons ['f'] (.file [1, 2]) .nil)) [] ∧ st.size = List.length [1, 2] :=
  C2_write_read_roundtrip ['/'] ['/', 'f'] [1, 2] [] 5 6 (.dir none .nil) _ _ rfl rfl

/-- C2 counterexample: when the parent directory's read flag is false but
its write flag is true, `writeFile` succeeds yet the subsequent `readFile`
rejects with PermissionDenied instead of returning the written bytes. -/
theorem C2_counterexample_read_denied_after_write :
    let sP : Node := .dir (some ⟨⟨true, true⟩, [], none⟩)
      (.cons ['d'] (.dir (some ⟨⟨false, true⟩, [], none⟩) .nil) .nil)
    let w := writeFileRun ['/'] ['/', 'd', '/', 'f'] [1, 2, 3, 4, 5] [] 100 sP
    w.isOk = true ∧
    (readFileRun ['/'] ['/', 'd', '/', 'f'] w.state).errOf
      = some (.permissionDenied ['/', 'd'] .read) :=
  ⟨rfl, rfl⟩

/-- C5 (amended): the per-operation permission checks, as the code performs
them. With the parent directory's write flag cleared, `writeFile`,
`appendFile`, `remove` and plain `mkdir` (away from the mount root),
`setMeta` (within the size cap), `utimes` and `createWriteStream` all
reject with PermissionDenied naming the parent directory and the write
flag; with the parent's read flag cleared, `readFile`, `readTextFile`,
`createReadStream` and `getMeta` reject naming the read flag; `ls`,
`readDir` and `query` check the target directory's own read flag. `mkdir`
with the `recursive` option checks nothing (see the counterexample), and
`stat`, `exists` and `setPermissions` perform no permission check. -/
theorem C5_per_op_permission_checks :
    (∀ (base path : List Char) (data : Bytes) (um : UserMeta) (now : Int)
      (s d : Node),
      getDirNode s (segmentsOf (parentPath (resolvePath base path))) = some d →
      (effMeta d).permissions.write = false →
      writeFileRun base path data um now s
        = .fail (.permissionDenied (parentPath (resolvePath base path)) .write) s []) ∧
    (∀ (base path : List Char) (data : Bytes) (now : Int) (s d : Node),
      getDirNode s (segmentsOf (parentPath (resolvePath base path))) = some d →
      (effMeta d).permissions.write = false →
      appendFileRun base path data now s
        = .fail (.permissionDenied (parentPath (resolvePath base path)) .write) s []) ∧
    (∀ (base path : List Char) (recursive force : Bool) (now : Int) (s d : Node),
      basename (resolvePath base path) ≠ [] →
      getDirNode s (segmentsOf (parentPath (resolvePath base path))) = some d →
      (effMeta d).permissions.write = false →
      removeRun base path recursive force now s
        = .fail (.permissionDenied (parentPath (resolvePath base path)) .write) s []) ∧
    (∀ (base path : List Char) (permsOpt : Option PermsPatch) (now : Int)
      (s d : Node),
      basename (resolvePath base path) ≠ [] →
      getDirNode s (segmentsOf (parentPath (resolvePath base path))) = some d →
      (effMeta d).permissions.write = false →
      mkdirRun base path false permsOpt now s
        = .fail (.permissionDenied (parentPath (resolvePath base path)) .write) s []) ∧
    (∀ (base path : List Char) (um : UserMeta) (now : Int) (s d : Node),
      ¬ 65536 < metaBytes um →
      getDirNode s (segmentsOf (parentPath (resolvePath base path))) = some d →
      (effMeta d).permissions.write = false →
      setMetaRun base path um now s
        = .fail (.permissionDenied (parentPath (resolvePath base path)) .write) s []) ∧
    (∀ (base path : List Char) (mtime : Int) (s d : Node),
      getDirNode s (segmentsOf (parentPath (resolvePath base path))) = some d →
      (effMeta d).permissions.write = false →
      utimesRun base path mtime s
        = .fail (.permissionDenied (parentPath (resolvePath base path)) .write) s []) ∧
    (∀ (base path : List Char) (s d : Node),
      getDirNode s (segmentsOf (parentPath (resolvePath base path))) = some d →
      (effMeta d).permissions.write = false →
      createWriteStreamRun base path s
        = .fail (.permissionDenied (parentPath (resolvePath base path)) .write) s []) ∧
    (∀ (base path : List Char) (s d : Node),
      getDirNode s (segmentsOf (parentPath (resolvePath base path))) = some d →
      (effMeta d).permissions.read = false →
      readFileRun base path s
        = .fail (.permissionDenied (parentPath (resolvePath base path)) .read) s []) ∧
    (∀ (base path : List Char) (s d : Node),
      getDirNode s (segmentsOf (parentPath (resolvePath base path))) = some d →
      (effMeta d).permissions.read = false →
      readTextFileRun base path s
        = .fail (.permissionDenied (parentPath (resolvePath base path)) .read) s []) ∧
    (∀ (base path : List Char) (s d : Node),
      getDirNode s (segmentsOf (parentPath (resolvePath base path))) = some d →
      (effMeta d).permissions.read = false →
      createReadStreamRun base path s
        = .fail (.permissionDenied (parentPath (resolvePath base path)) .read) s []) ∧
    (∀ (base path : List Char) (s d : Node),
      getDirNode s (segmentsOf (parentPath (resolvePath base path))) = some d →
      (effMeta d).permissions.read = false →
      getMetaRun base path s
        = .fail (.permissionDenied (parentPath (resolvePath base path)) .read) s []) ∧
    (∀ (base path : List Char) (now : Int) (s d : Node),
      getDirNode s (segmentsOf (resolvePath base path)) = some d →
      (effMeta d).permissions.read = false →
      lsRun base path now s
        = .fail (.permissionDenied (resolvePath base path) .read) s []) ∧
    (∀ (base path : List Char) (s d : Node),
      getDirNode s (segmentsOf (resolvePath base path)) = some d →
      (effMeta d).permissions.read = false →
      readDirRun base path s
        = .fail (.permissionDenied (resolvePath base path) .read) s []) ∧
    (∀ (base dirPath : List Char) (filter : FileEntry → Bool) (s d : Node),
      getDirNode s (segmentsOf (resolvePath base dirPath)) = some d →
      (effMeta d).permissions.read = false →
      queryRun base dirPath filter s
        = .fail (.permissionDenied (resolvePath base dirPath) .read) s []) := by
  refine ⟨?_, ?_, ?_, ?_, ?_, ?_, ?_, ?_, ?_, ?_, ?_, ?_, ?_, ?_⟩
  · intro base path data um now s d hgd hwf
    simp [writeFileRun, hgd, hwf]
  · intro base path data now s d hgd hwf
    simp [appendFileRun, hgd, hwf]
  · intro base path recursive force now s d hnm hgd hwf
    simp [removeRun, hnm, hgd, hwf]
  · intro base path permsOpt now s d hnm hgd hwf
    simp [mkdirRun, hnm, hgd, hwf]
  · intro base path um now s d hms hgd hwf
    simp [setMetaRun, hms, hgd, hwf]
  · intro base path mtime s d hgd hwf
    simp [utimesRun, hgd, hwf]
  · intro base path s d hgd hwf
    simp [createWriteStreamRun, hgd, hwf]
  · intro base path s d hgd hrf
    simp [readFileRun, hgd, hrf]
  · intro base path s d hgd hrf
    simp [readTextFileRun, readFileRun, hgd, hrf]
  · intro base path s d hgd hrf
    simp [createReadStreamRun, readFileRun, hgd, hrf]
  · intro base path s d hgd hrf
    simp [getMetaRun, hgd, hrf]
  · intro base path now s d hgd hrf
    simp [lsRun, hgd, hrf]
  · intro base path s d hgd hrf
    simp [readDirRun, hgd, hrf]
  · intro base dirPath filter s d hgd hrf
    simp [queryRun, hgd, hrf]

/-- Witness for the amended C5: `writeFile` under a write-protected root
rejects with PermissionDenied for the write flag. -/
theorem C5_per_op_permission_checks_witness :
    writeFileRun ['/'] ['/', 'f'] [1] [] 3
        (.dir (some ⟨⟨true, false⟩, [], none⟩) .nil)
      = .fail (.permissionDenied ['/'] .write)
        (.dir (some ⟨⟨true, false⟩, [], none⟩) .nil) [] :=
  C5_per_op_permission_checks.1 ['/'] ['/', 'f'] [1] [] 3
    (.dir (some ⟨⟨true, false⟩, [], none⟩) .nil)
    (.dir (some ⟨⟨true, false⟩, [], none⟩) .nil) rfl rfl

theorem C9ex :
    ∀ (base path : List Char) (s : Node), (existsRun base path s).okOrKind = true := by
    intro base path s
    simp only [existsRun]
    split
    · rfl
    · split
      · rfl
      · split
        · rfl
        · rfl

theorem C9rf :
    ∀ (base path : List Char) (s d : Node),
      getDirNode s (segmentsOf (parentPath (resolvePath base path))) = some d →
      (readFileRun base path s).okOrKind = true := by
    intro base path s d hgd
    simp only [readFileRun, hgd]
    split
    · split
      · rfl
      · rfl
    · rfl

theorem C9rtf :
    ∀ (base path : List Char) (s d : Node),
      getDirNode s (segmentsOf (parentPath (resolvePath base path))) = some d →
      (readTextFileRun base path s).okOrKind = true := by
    intro base path s d hgd
    simp only [readTextFileRun, readFileRun, hgd]
    split
    · split
      · rfl
      · rfl
    · rfl

theorem C9crs :
    ∀ (base path : List Char) (s d : Node),
      getDirNode s (segmentsOf (parentPath (resolvePath base path))) = some d →
      (createReadStreamRun base path s).okOrKind = true := by
    intro base path s d hgd
    simp only [createReadStreamRun, readFileRun, hgd]
    split
    · split
      · rfl
      · rfl
    · rfl

theorem C9gm :
    ∀ (base path : List Char) (s d : Node),
      getDirNode s (segmentsOf (parentPath (resolvePath base path))) = some d →
      (getMetaRun base path s).okOrKind = true := by
    intro base path s d hgd
    simp only [getMetaRun, hgd]
    split
    · split
      · rfl
      · rfl
    · rfl

theorem C9st :
    ∀ (base path : List Char) (now : Int) (s d : Node),
      getDirNode s (segmentsOf (parentPath (resolvePath base path))) = some d →
      (statRun base path now s).okOrKind = true := by
    intro base path now s d hgd
    simp only [statRun, hgd]
    split
    · rfl
    · split
      · rfl
      · split
        · rfl
        · rfl
        · rfl

theorem C9ut :
    ∀ (base path : List Char) (mtime : Int) (s d : Node),
      getDirNode s (segmentsOf (parentPath (resolvePath base path))) = some d →
      (utimesRun base path mtime s).okOrKind = true := by
    intro base path mtime s d hgd
    simp only [utimesRun, hgd]
    split
    · split
      · rfl
      · rfl
    · rfl

theorem C9sm :
    ∀ (base path : List Char) (um : UserMeta) (now : Int) (s d : Node),
      getDirNode s (segmentsOf (parentPath (resolvePath base path))) = some d →
      (setMetaRun base path um now s).okOrKind = true := by
    intro base path um now s d hgd
    simp only [setMetaRun, hgd]
    split
    · rfl
    · split
      · split
        · rfl
        · rfl
      · rfl

theorem C9rm :
    ∀ (base path : List Char) (recursive force : Bool) (now : Int) (s d : Node),
      getDirNode s (segmentsOf (parentPath (resolvePath base path))) = some d →
      (removeRun base path recursive force now s).okOrKind = true := by
    intro base path recursive force now s d hgd
    obtain ⟨hgn, m, cs, rfl⟩ := getDirNode_eq_some hgd
    simp only [removeRun, hgd]
    split
    · rfl
    · split
      · split
        · have hs1 : getNode
              (updAt s (segmentsOf (parentPath (resolvePath base path)))
                (Node.removeChild (basename (resolvePath base path))))
              (segmentsOf (parentPath (resolvePath base path)))
              = some (.dir m (Children.del cs (basename (resolvePath base path)))) :=
            getNode_updAt_same hgn _
          simp only [getDirNode_of_getNode_dir hs1]
          rfl
        · split
          · rfl
          · rfl
      · rfl

theorem C9ls :
    ∀ (base path : List Char) (now : Int) (s d : Node),
      getDirNode s (segmentsOf (resolvePath base path)) = some d →
      (lsRun base path now s).okOrKind = true := by
    intro base path now s d hgd
    simp only [lsRun, hgd]
    split
    · rfl
    · rfl

theorem C9rd :
    ∀ (base path : List Char) (s d : Node),
      getDirNode s (segmentsOf (resolvePath base path)) = some d →
      (readDirRun base path s).okOrKind = true := by
    intro base path s d hgd
    simp only [readDirRun, hgd]
    split
    · rfl
    · rfl

theorem C9qr :
    ∀ (base dirPath : List Char) (filter : FileEntry → Bool) (s d : Node),
      getDirNode s (segmentsOf (resolvePath base dirPath)) = some d →
      (queryRun base dirPath filter s).okOrKind = true := by
    intro base dirPath filter s d hgd
    simp only [queryRun, hgd]
    split
    · rfl
    · rfl

theorem C9sp :
    ∀ (base dirPath : List Char) (patch : PermsPatch) (s d : Node),
      getDirNode s (segmentsOf (resolvePath base dirPath)) = some d →
      (setPermissionsRun base dirPath patch s).okOrKind = true := by
    intro base dirPath patch s d hgd
    simp only [setPermissionsRun, hgd]
    rfl

theorem C9wf :
    ∀ (base path : List Char) (data : Bytes) (um : UserMeta) (now : Int)
      (s d : Node),
      getDirNode s (segmentsOf (parentPath (resolvePath base path))) = some d →
      validName (basename (resolvePath base path)) = true →
      (∀ m2 cs2, alGet (Node.childrenOf d) (basename (resolvePath base path))
        ≠ some (.dir m2 cs2)) →
      (writeFileRun base path data um now s).okOrKind = true := by
    intro base path data um now s d hgd hvn hnd
    obtain ⟨hgn, m, cs, rfl⟩ := getDirNode_eq_some hgd
    simp only [writeFileRun, hgd]
    split
    · have hwc : writeContent s (segmentsOf (parentPath (resolvePath base path)))
          (basename (resolvePath base path)) data
          = some (updAt s (segmentsOf (parentPath (resolvePath base path)))
              (Node.setChild (basename (resolvePath base path)) (.file data))) := by
        cases halg : alGet (Node.childrenOf (Node.dir m cs))
            (basename (resolvePath base path)) with
        | none => simp [writeContent, hgd, hvn, halg]
        | some c =>
          cases c with
          | file b => simp [writeContent, hgd, hvn, halg]
          | dir m2 cs2 => exact absurd halg (hnd m2 cs2)
      simp only [hwc]
      split
      · rfl
      · have hs1 : getNode
            (updAt s (segmentsOf (parentPath (resolvePath base path)))
              (Node.setChild (basename (resolvePath base path)) (.file data)))
            (segmentsOf (parentPath (resolvePath base path)))
            = some (.dir m (Children.set cs (basename (resolvePath base path))
                (.file data))) :=
          getNode_updAt_same hgn _
        simp only [getDirNode_of_getNode_dir hs1]
        rfl
    · rfl

theorem C9cws :
    ∀ (base path : List Char) (s d : Node),
      getDirNode s (segmentsOf (parentPath (resolvePath base path))) = some d →
      validName (basename (resolvePath base path)) = true →
      (∀ m2 cs2, alGet (Node.childrenOf d) (basename (resolvePath base path))
        ≠ some (.dir m2 cs2)) →
      (createWriteStreamRun base path s).okOrKind = true := by
    intro base path s d hgd hvn hnd
    obtain ⟨hgn, m, cs, rfl⟩ := getDirNode_eq_some hgd
    simp only [createWriteStreamRun, hgd]
    split
    · cases halg : alGet (Node.childrenOf (Node.dir m cs))
          (basename (resolvePath base path)) with
      | none => simp only [halg, hvn, if_true]; rfl
      | some c =>
        cases c with
        | file b => simp only [halg]; rfl
        | dir m2 cs2 => exact absurd halg (hnd m2 cs2)
    · rfl

set_option maxHeartbeats 1600000 in
theorem C9mk :
    ∀ (base path : List Char) (now : Int) (s d : Node),
      getDirNode s (segmentsOf (parentPath (resolvePath base path))) = some d →
      validName (basename (resolvePath base path)) = true →
      (∀ b, alGet (Node.childrenOf d) (basename (resolvePath base path))
        ≠ some (.file b)) →
      (mkdirRun base path false none now s).okOrKind = true := by
    intro base path now s d hgd hvn hnf
    obtain ⟨hgn, m, cs, rfl⟩ := getDirNode_eq_some hgd
    simp only [mkdirRun, hgd, Bool.false_eq_true, if_false]
    split
    · rfl
    · split
      · next e s2 evs2 heq =>
        by_cases hw : (effMeta (Node.dir m cs)).permissions.write = true
        · rw [if_pos hw] at heq
          cases halg : alGet (Node.childrenOf (Node.dir m cs))
              (basename (resolvePath base path)) with
          | none =>
            have hs1 : getNode
                (updAt s (segmentsOf (parentPath (resolvePath base path)))
                  (Node.setChild (basename (resolvePath base path)) (.dir none .nil)))
                (segmentsOf (parentPath (resolvePath base path)))
                = some (.dir m (Children.set cs (basename (resolvePath base path))
                    (.dir none .nil))) :=
              getNode_updAt_same hgn _
            simp only [halg, getDirNode_of_getNode_dir hs1] at heq
            exact absurd heq (by simp)
          | some c =>
            cases c with
            | file b => exact absurd halg (hnf b)
            | dir m2 cs2 =>
              simp only [halg] at heq
              injection heq with he h2 h3
              subst he
              rfl
        · rw [if_neg hw] at heq
          injection heq with he h2 h3
          subst he
          rfl
      · rfl

set_option maxHeartbeats 1600000 in
theorem C9af :
    ∀ (base path : List Char) (data ex : Bytes) (now : Int) (s d : Node),
      getDirNode s (segmentsOf (parentPath (resolvePath base path))) = some d →
      validName (basename (resolvePath base path)) = true →
      alGet (Node.childrenOf d) (basename (resolvePath base path))
        = some (.file ex) →
      (alGet (effMeta d).children (basename (resolvePath base path))).isSome
        = true →
      (appendFileRun base path data now s).okOrKind = true := by
    intro base path data ex now s d hgd hvn hfile htr
    obtain ⟨hgn, m, cs, rfl⟩ := getDirNode_eq_some hgd
    simp only [appendFileRun, hgd]
    split
    · by_cases hr : (effMeta (Node.dir m cs)).permissions.read = true
      · have hread : readFileRun base path s = .ok ex s [] := by
          simp only [readFileRun, getFileAt, hgd, hr, if_true, hvn, hfile]
        simp only [hread]
        have hwc : writeContent s (segmentsOf (parentPath (resolvePath base path)))
            (basename (resolvePath base path)) (ex ++ data)
            = some (updAt s (segmentsOf (parentPath (resolvePath base path)))
                (Node.setChild (basename (resolvePath base path))
                  (.file (ex ++ data)))) := by
          simp [writeContent, hgd, hvn, hfile]
        simp only [hwc]
        have hs1 : getNode
            (updAt s (segmentsOf (parentPath (resolvePath base path)))
              (Node.setChild (basename (resolvePath base path)) (.file (ex ++ data))))
            (segmentsOf (parentPath (resolvePath base path)))
            = some (.dir m (Children.set cs (basename (resolvePath base path))
                (.file (ex ++ data)))) :=
          getNode_updAt_same hgn _
        simp only [getDirNode_of_getNode_dir hs1]
        have htr2 : (alGet (effMeta (Node.dir m (Children.set cs
            (basename (resolvePath base path)) (.file (ex ++ data))))).children
            (basename (resolvePath base path))).isSome = true := htr
        cases hc : alGet (effMeta (Node.dir m (Children.set cs
            (basename (resolvePath base path)) (.file (ex ++ data))))).children
            (basename (resolvePath base path)) with
        | none => rw [hc] at htr2; simp at htr2
        | some child => simp only [hc]; rfl
      · have hread : readFileRun base path s
            = .fail (.permissionDenied (parentPath (resolvePath base path)) .read)
              s [] := by
          simp only [readFileRun, hgd]
          rw [if_neg hr]
        simp only [hread]
        rfl
    · rfl

/-- C9 (amended): away from the backend-error escapes, every operation
resolves or rejects with one of the six defined kinds. `exists` never
throws. With the resolved parent directory present on the backend, the
read/stat/metadata family — `readFile`, `readTextFile`, `createReadStream`,
`getMeta`, `stat`, `utimes`, `setMeta` — and `remove` resolve or reject with
a defined kind; so do `ls`, `readDir`, `query` and `setPermissions` when the
target directory is present. `writeFile` and `createWriteStream` need the
resolved basename valid for the backend and the target not an existing
directory; plain `mkdir` needs the target not an existing file and a valid
basename; `appendFile` needs the target to be a backend file that is also
tracked in the parent record. Outside these provisos a DOMException or
TypeError escapes (see the counterexample). -/
theorem C9_defined_error_classification :
    (∀ (base path : List Char) (s : Node), (existsRun base path s).okOrKind = true) ∧
    (∀ (base path : List Char) (s d : Node),
      getDirNode s (segmentsOf (parentPath (resolvePath base path))) = some d →
      (readFileRun base path s).okOrKind = true) ∧
    (∀ (base path : List Char) (s d : Node),
      getDirNode s (segmentsOf (parentPath (resolvePath base path))) = some d →
      (readTextFileRun base path s).okOrKind = true) ∧
    (∀ (base path : List Char) (s d : Node),
      getDirNode s (segmentsOf (parentPath (resolvePath base path))) = some d →
      (createReadStreamRun base path s).okOrKind = true) ∧
    (∀ (base path : List Char) (s d : Node),
      getDirNode s (segmentsOf (parentPath (resolvePath base path))) = some d →
      (getMetaRun base path s).okOrKind = true) ∧
    (∀ (base path : List Char) (now : Int) (s d : Node),
      getDirNode s (segmentsOf (parentPath (resolvePath base path))) = some d →
      (statRun base path now s).okOrKind = true) ∧
    (∀ (base path : List Char) (mtime : Int) (s d : Node),
      getDirNode s (segmentsOf (parentPath (resolvePath base path))) = some d →
      (utimesRun base path mtime s).okOrKind = true) ∧
    (∀ (base path : List Char) (um : UserMeta) (now : Int) (s d : Node),
      getDirNode s (segmentsOf (parentPath (resolvePath base path))) = some d →
      (setMetaRun base path um now s).okOrKind = true) ∧
    (∀ (base path : List Char) (recursive force : Bool) (now : Int) (s d : Node),
      getDirNode s (segmentsOf (parentPath (resolvePath base path))) = some d →
      (removeRun base path recursive force now s).okOrKind = true) ∧
    (∀ (base path : List Char) (now : Int) (s d : Node),
      getDirNode s (segmentsOf (resolvePath base path)) = some d →
      (lsRun base path now s).okOrKind = true) ∧
    (∀ (base path : List Char) (s d : Node),
      getDirNode s (segmentsOf (resolvePath base path)) = some d →
      (readDirRun base path s).okOrKind = true) ∧
    (∀ (base dirPath : List Char) (filter : FileEntry → Bool) (s d : Node),
      getDirNode s (segmentsOf (resolvePath base dirPath)) = some d →
      (queryRun base dirPath filter s).okOrKind = true) ∧
    (∀ (base dirPath : List Char) (patch : PermsPatch) (s d : Node),
      getDirNode s (segmentsOf (resolvePath base dirPath)) = some d →
      (setPermissionsRun base dirPath patch s).okOrKind = true) ∧
    (∀ (base path : List Char) (data : Bytes) (um : UserMeta) (now : Int)
      (s d : Node),
      getDirNode s (segmentsOf (parentPath (resolvePath base path))) = some d →
      validName (basename (resolvePath base path)) = true →
      (∀ m2 cs2, alGet (Node.childrenOf d) (basename (resolvePath base path))
        ≠ some (.dir m2 cs2)) →
      (writeFileRun base path data um now s).okOrKind = true) ∧
    (∀ (base path : List Char) (s d : Node),
      getDirNode s (segmentsOf (parentPath (resolvePath base path))) = some d →
      validName (basename (resolvePath base path)) = true →
      (∀ m2 cs2, alGet (Node.childrenOf d) (basename (resolvePath base path))
        ≠ some (.dir m2 cs2)) →
      (createWriteStreamRun base path s).okOrKind = true) ∧
    (∀ (base path : List Char) (now : Int) (s d : Node),
      getDirNode s (segmentsOf (parentPath (resolvePath base path))) = some d →
      validName (basename (resolvePath base path)) = true →
      (∀ b, alGet (Node.childrenOf d) (basename (resolvePath base path))
        ≠ some (.file b)) →
      (mkdirRun base path false none now s).okOrKind = true) ∧
    (∀ (base path : List Char) (data ex : Bytes) (now : Int) (s d : Node),
      getDirNode s (segmentsOf (parentPath (resolvePath base path))) = some d →
      validName (basename (resolvePath base path)) = true →
      alGet (Node.childrenOf d) (basename (resolvePath base path))
        = some (.file ex) →
      (alGet (effMeta d).children (basename (resolvePath base path))).isSome
        = true →
      (appendFileRun base path data now s).okOrKind = true) :=
  ⟨C9ex, C9rf, C9rtf, C9crs, C9gm, C9st, C9ut, C9sm, C9rm, C9ls, C9rd, C9qr, C9sp, C9wf, C9cws, C9mk, C9af⟩

set_option maxHeartbeats 8000000 in
/-- Witness for the amended C9: `readFile` of an untracked name on a fresh
root rejects with the defined NotFound kind. -/
theorem C9_defined_error_classification_witness :
    (readFileRun ['/'] ['/', 'f'] (.dir none .nil)).okOrKind = true :=
  C9_defined_error_classification.2.1 ['/'] ['/', 'f'] (.dir none .nil)
    (.dir none .nil) rfl

theorem alGet_append_single_ne {β : Type} (l : List (FsName × β)) (n k : FsName)
    (v : β) (h : n ≠ k) : alGet (l ++ [(n, v)]) k = alGet l k := by
  induction l with
  | nil => simp [alGet, h]
  | cons kv rest ih =>
    rcases kv with ⟨k0, v0⟩
    by_cases h0 : k0 = k
    · simp [alGet, h0]
    · simp only [List.cons_append, alGet, if_neg h0]
      exact ih

theorem alGet_append_single_self {β : Type} (l : List (FsName × β)) (k : FsName)
    (v : β) (h : alGet l k = none) : alGet (l ++ [(k, v)]) k = some v := by
  induction l with
  | nil => simp [alGet]
  | cons kv rest ih =>
    rcases kv with ⟨k0, v0⟩
    by_cases h0 : k0 = k
    · rw [show alGet ((k0, v0) :: rest) k = some v0 by simp [alGet, h0]] at h
      exact absurd h (by simp)
    · rw [show alGet ((k0, v0) :: rest) k = alGet rest k by simp [alGet, h0]] at h
      simp only [List.cons_append, alGet, if_neg h0]
      exact ih h

theorem alGet_isSome_of_mem {β : Type} :
    ∀ (l : List (FsName × β)) (k : FsName) (v : β),
      (k, v) ∈ l → (alGet l k).isSome = true := by
  intro l
  induction l with
  | nil => intro k v h; simp at h
  | cons kv rest ih =>
    intro k v h
    rcases kv with ⟨k0, v0⟩
    by_cases h0 : k0 = k
    · simp [alGet, h0]
    · rw [show alGet ((k0, v0) :: rest) k = alGet rest k by simp [alGet, h0]]
      rcases List.mem_cons.mp h with he | hm
      · exact absurd (congrArg Prod.fst he).symm h0
      · exact ih k v hm

theorem addFix_mono (now : Int) :
    ∀ (actual : List (FsName × Node)) (ch : List (FsName × ChildMeta)),
      (fsckAddFix now actual ch true).2 = true := by
  intro actual
  induction actual with
  | nil => intro ch; rfl
  | cons kv rest ih =>
    intro ch
    rcases kv with ⟨name, h⟩
    cases hg : alGet ch name with
    | none => simp only [fsckAddFix, hg]; exact ih _
    | some cm =>
      cases h with
      | file b =>
        by_cases hsz : cm.size ≠ some b.length
        · simp only [fsckAddFix, hg, if_pos hsz]; exact ih _
        · simp only [fsckAddFix, hg, if_neg hsz]; exact ih _
      | dir m2 cs2 => simp only [fsckAddFix, hg]; exact ih _

theorem addFix_pres (now : Int) :
    ∀ (actual : List (FsName × Node)) (ch : List (FsName × ChildMeta)) (c : Bool)
      (k : FsName), alGet actual k = none →
      alGet (fsckAddFix now actual ch c).1 k = alGet ch k := by
  intro actual
  induction actual with
  | nil => intro ch c k _; rfl
  | cons kv rest ih =>
    intro ch c k hk
    rcases kv with ⟨name, h⟩
    have hne : name ≠ k := by
      intro he
      rw [show alGet ((name, h) :: rest) k = some h by simp [alGet, he]] at hk
      simp at hk
    have hrest : alGet rest k = none := by
      rw [show alGet ((name, h) :: rest) k = alGet rest k by simp [alGet, hne]] at hk
      exact hk
    cases hg : alGet ch name with
    | none =>
      simp only [fsckAddFix, hg]
      rw [ih _ _ k hrest, alGet_append_single_ne _ _ _ _ hne]
    | some cm =>
      cases h with
      | file b =>
        by_cases hsz : cm.size ≠ some b.length
        · simp only [fsckAddFix, hg, if_pos hsz]
          rw [ih _ _ k hrest, alGet_set_ne _ _ _ (fun he => hne he.symm)]
        · simp only [fsckAddFix, hg, if_neg hsz]
          exact ih _ _ k hrest
      | dir m2 cs2 =>
        simp only [fsckAddFix, hg]
        exact ih _ _ k hrest

theorem addFix_good (now : Int) :
    ∀ (actual : List (FsName × Node)) (ch : List (FsName × ChildMeta)) (c : Bool),
      namesOk actual = true →
      ∀ (k : FsName) (hn : Node), (k, hn) ∈ actual →
      (match alGet (fsckAddFix now actual ch c).1 k with
        | none => false
        | some cm =>
          match hn with
          | .file b => decide (cm.size = some b.length)
          | .dir _ _ => true) = true := by
  intro actual
  induction actual with
  | nil => intro ch c _ k hn hm; simp at hm
  | cons kv rest ih =>
    intro ch c hok k hn hm
    rcases kv with ⟨name, h⟩
    simp only [namesOk, Bool.and_eq_true] at hok
    rcases List.mem_cons.mp hm with he | hmr
    · -- the head entry: survives the rest of the pass untouched
      have hk : name = k := (congrArg Prod.fst he).symm
      subst hk
      have hh : hn = h := (congrArg Prod.snd he)
      subst hh
      have hrestnone : alGet rest name = none := by
        have := hok.1.2
        cases hg : alGet rest name with
        | none => rfl
        | some x => rw [hg] at this; simp at this
      cases hg : alGet ch name with
      | none =>
        simp only [fsckAddFix, hg]
        rw [addFix_pres now rest _ _ _ hrestnone,
          alGet_append_single_self _ _ _ hg]
        cases hn with
        | file b => simp [fsckChild]
        | dir m2 cs2 => rfl
      | some cm =>
        cases hn with
        | file b =>
          by_cases hsz : cm.size ≠ some b.length
          · simp only [fsckAddFix, hg, if_pos hsz]
            rw [addFix_pres now rest _ _ _ hrestnone, alGet_set_self]
            simp
          · simp only [fsckAddFix, hg, if_neg hsz]
            rw [addFix_pres now rest _ _ _ hrestnone, hg]
            simp only [ne_eq, Decidable.not_not] at hsz
            simp [hsz]
        | dir m2 cs2 =>
          simp only [fsckAddFix, hg]
          rw [addFix_pres now rest _ _ _ hrestnone, hg]
    · -- an entry of the tail
      cases hg : alGet ch name with
      | none =>
        simp only [fsckAddFix, hg]
        exact ih _ _ hok.2 k hn hmr
      | some cm =>
        cases h with
        | file b =>
          by_cases hsz : cm.size ≠ some b.length
          · simp only [fsckAddFix, hg, if_pos hsz]
            exact ih _ _ hok.2 k hn hmr
          · simp only [fsckAddFix, hg, if_neg hsz]
            exact ih _ _ hok.2 k hn hmr
        | dir m2 cs2 =>
          simp only [fsckAddFix, hg]
          exact ih _ _ hok.2 k hn hmr

theorem addFix_nochange (now : Int) :
    ∀ (actual : List (FsName × Node)) (ch : List (FsName × ChildMeta)),
      (fsckAddFix now actual ch false).2 = false →
      (fsckAddFix now actual ch false).1 = ch := by
  intro actual
  induction actual with
  | nil => intro ch _; rfl
  | cons kv rest ih =>
    intro ch hf
    rcases kv with ⟨name, h⟩
    cases hg : alGet ch name with
    | none =>
      simp only [fsckAddFix, hg] at hf
      rw [addFix_mono now rest _] at hf
      exact absurd hf (by simp)
    | some cm =>
      cases h with
      | file b =>
        by_cases hsz : cm.size ≠ some b.length
        · simp only [fsckAddFix, hg, if_pos hsz] at hf
          rw [addFix_mono now rest _] at hf
          exact absurd hf (by simp)
        · simp only [fsckAddFix, hg, if_neg hsz] at hf ⊢
          exact ih ch hf
      | dir m2 cs2 =>
        simp only [fsckAddFix, hg] at hf ⊢
        exact ih ch hf

theorem addFix_nochange_good (now : Int) :
    ∀ (actual : List (FsName × Node)) (ch : List (FsName × ChildMeta)),
      (fsckAddFix now actual ch false).2 = false →
      ∀ (k : FsName) (hn : Node), (k, hn) ∈ actual →
      (match alGet ch k with
        | none => false
        | some cm =>
          match hn with
          | .file b => decide (cm.size = some b.length)
          | .dir _ _ => true) = true := by
  intro actual
  induction actual with
  | nil => intro ch _ k hn hm; simp at hm
  | cons kv rest ih =>
    intro ch hf k hn hm
    rcases kv with ⟨name, h⟩
    cases hg : alGet ch name with
    | none =>
      simp only [fsckAddFix, hg] at hf
      rw [addFix_mono now rest _] at hf
      exact absurd hf (by simp)
    | some cm =>
      cases h with
      | file b =>
        by_cases hsz : cm.size ≠ some b.length
        · simp only [fsckAddFix, hg, if_pos hsz] at hf
          rw [addFix_mono now rest _] at hf
          exact absurd hf (by simp)
        · simp only [fsckAddFix, hg, if_neg hsz] at hf
          rcases List.mem_cons.mp hm with he | hmr
          · have hk : name = k := (congrArg Prod.fst he).symm
            subst hk
            have hh : hn = Node.file b := congrArg Prod.snd he
            subst hh
            rw [hg]
            simp only [ne_eq, Decidable.not_not] at hsz
            simp [hsz]
          · exact ih ch hf k hn hmr
      | dir m2 cs2 =>
        simp only [fsckAddFix, hg] at hf
        rcases List.mem_cons.mp hm with he | hmr
        · have hk : name = k := (congrArg Prod.fst he).symm
          subst hk
          have hh : hn = Node.dir m2 cs2 := congrArg Prod.snd he
          subst hh
          rw [hg]
        · exact ih ch hf k hn hmr

theorem all_filter_self {α : Type} (p : α → Bool) :
    ∀ l : List α, (l.filter p).all p = true := by
  intro l
  induction l with
  | nil => rfl
  | cons a rest ih =>
    rw [List.filter_cons]
    by_cases h : p a = true
    · rw [if_pos h, List.all_cons, h, ih]
      rfl
    · rw [if_neg h]
      exact ih

theorem namesOk_filter_id :
    ∀ l : List (FsName × Node), namesOk l = true →
      l.filter (fun kv => !(isMetaFile kv.1)) = l := by
  intro l
  induction l with
  | nil => intro _; rfl
  | cons kv rest ih =>
    intro h
    rcases kv with ⟨n, v⟩
    simp only [namesOk, Bool.and_eq_true] at h
    simp only [List.filter_cons]
    rw [if_pos h.1.1, ih h.2]

theorem alGet_filter_isSome {β γ : Type} (actual : List (FsName × γ)) :
    ∀ (l : List (FsName × β)) (k : FsName), (alGet actual k).isSome = true →
      alGet (l.filter (fun kv => (alGet actual kv.1).isSome)) k = alGet l k := by
  intro l
  induction l with
  | nil => intro k _; rfl
  | cons kv rest ih =>
    intro k hk
    rcases kv with ⟨k0, v0⟩
    rw [List.filter_cons]
    by_cases h0 : k0 = k
    · subst h0
      rw [if_pos hk]
      simp [alGet]
    · by_cases hp : (alGet actual k0).isSome = true
      · rw [if_pos hp]
        rw [show alGet ((k0, v0) :: rest.filter (fun kv => (alGet actual kv.1).isSome)) k
            = alGet (rest.filter (fun kv => (alGet actual kv.1).isSome)) k by
          simp [alGet, h0]]
        rw [show alGet ((k0, v0) :: rest) k = alGet rest k by simp [alGet, h0]]
        exact ih k hk
      · rw [if_neg hp]
        rw [show alGet ((k0, v0) :: rest) k = alGet rest k by simp [alGet, h0]]
        exact ih k hk

theorem repair_matches (now : Int) (m : Option DirMeta)
    (l : List (FsName × Node)) (hn : namesOk l = true) :
    recordMatches
      (if (fsckRepairRecord now l (m.getD defaultDirMeta)).2
        then some (fsckRepairRecord now l (m.getD defaultDirMeta)).1 else m)
      l = true := by
  have hfil : l.filter (fun kv => !(isMetaFile kv.1)) = l := namesOk_filter_id l hn
  simp only [recordMatches, hfil, Bool.and_eq_true]
  cases hrep : (fsckRepairRecord now l (m.getD defaultDirMeta)).2 with
  | true =>
    simp only [if_true, Option.getD_some]
    constructor
    · rw [List.all_eq_true]
      intro kv hkv
      have hsome := alGet_isSome_of_mem l kv.1 kv.2 hkv
      have hrw := alGet_filter_isSome l
        (fsckAddFix now l (m.getD defaultDirMeta).children false).1 kv.1 hsome
      have hgood := addFix_good now l (m.getD defaultDirMeta).children false hn
        kv.1 kv.2 hkv
      rw [show (fsckRepairRecord now l (m.getD defaultDirMeta)).1.children
          = (fsckAddFix now l (m.getD defaultDirMeta).children false).1.filter
              (fun kv2 => (alGet l kv2.1).isSome) from rfl, hrw]
      exact hgood
    · rw [show (fsckRepairRecord now l (m.getD defaultDirMeta)).1.children
          = (fsckAddFix now l (m.getD defaultDirMeta).children false).1.filter
              (fun kv2 => (alGet l kv2.1).isSome) from rfl]
      exact all_filter_self _ _
  | false =>
    simp only [Bool.false_eq_true, if_false]
    have hrep2 : ((fsckAddFix now l (m.getD defaultDirMeta).children false).2
        || (fsckAddFix now l (m.getD defaultDirMeta).children false).1.any
            (fun kv => (alGet l kv.1).isNone)) = false := hrep
    rw [Bool.or_eq_false_iff] at hrep2
    have hch := addFix_nochange now l (m.getD defaultDirMeta).children hrep2.1
    constructor
    · rw [List.all_eq_true]
      intro kv hkv
      exact addFix_nochange_good now l (m.getD defaultDirMeta).children
        hrep2.1 kv.1 kv.2 hkv
    · rw [List.all_eq_true]
      intro kv hkv
      have hany := hrep2.2
      rw [hch, List.any_eq_false] at hany
      have := hany kv hkv
      cases hg : alGet l kv.1 with
      | none => rw [hg] at this; simp at this
      | some x => simp [hg]

theorem list_all_ext {α : Type} {f g : α → Bool} (h : ∀ x, f x = g x) :
    ∀ l : List α, l.all f = l.all g := by
  intro l
  induction l with
  | nil => rfl
  | cons a rest ih => rw [List.all_cons, List.all_cons, h a, ih]

theorem map_filter_meta :
    ∀ l : List (FsName × Node),
      (l.filter (fun kv => !(isMetaFile kv.1))).map shapeKV
      = (l.map shapeKV).filter (fun kv => !(isMetaFile kv.1)) := by
  intro l
  induction l with
  | nil => rfl
  | cons a rest ih =>
    rcases a with ⟨k, nd⟩
    rw [List.map_cons, List.filter_cons, List.filter_cons]
    simp only [shapeKV]
    by_cases h : (!(isMetaFile k)) = true
    · rw [if_pos h, if_pos h, List.map_cons, ih]
      rfl
    · rw [if_neg h, if_neg h, ih]

theorem alGet_shape_isSome :
    ∀ (l : List (FsName × Node)) (k : FsName),
      (alGet (l.map shapeKV) k).isSome = (alGet l k).isSome := by
  intro l
  induction l with
  | nil => intro k; rfl
  | cons a rest ih =>
    intro k
    rcases a with ⟨k0, nd⟩
    by_cases h0 : k0 = k
    · simp [alGet, shapeKV, h0]
    · simp [alGet, shapeKV, h0, ih k]

theorem all_good_shape (children : List (FsName × ChildMeta)) :
    ∀ (l1 l2 : List (FsName × Node)), l1.map shapeKV = l2.map shapeKV →
      l1.all (fun kv =>
        match alGet children kv.1 with
        | none => false
        | some cm =>
          match kv.2 with
          | .file b => decide (cm.size = some b.length)
          | .dir _ _ => true)
      = l2.all (fun kv =>
        match alGet children kv.1 with
        | none => false
        | some cm =>
          match kv.2 with
          | .file b => decide (cm.size = some b.length)
          | .dir _ _ => true) := by
  intro l1
  induction l1 with
  | nil =>
    intro l2 h
    cases l2 with
    | nil => rfl
    | cons b t => simp at h
  | cons a t1 ih =>
    intro l2 h
    cases l2 with
    | nil => simp at h
    | cons b t2 =>
      rcases a with ⟨ka, na⟩
      rcases b with ⟨kb, nb⟩
      simp only [List.map_cons, List.cons.injEq, shapeKV, Prod.mk.injEq] at h
      obtain ⟨⟨hk, hs⟩, hm2⟩ := h
      subst hk
      rw [List.all_cons, List.all_cons, ih t2 hm2]
      congr 1
      cases na with
      | file ba =>
        cases nb with
        | file bb =>
          simp only [nodeShape, Option.some.injEq] at hs
          cases halg : alGet children ka with
          | none => simp [halg]
          | some cm => simp [halg, hs]
        | dir mb cb => simp [nodeShape] at hs
      | dir ma ca =>
        cases nb with
        | file bb => simp [nodeShape] at hs
        | dir mb cb =>
          cases halg : alGet children ka with
          | none => simp [halg]
          | some cm => simp [halg]

theorem recordMatches_shape (m : Option DirMeta) (l1 l2 : List (FsName × Node))
    (hmap : l1.map shapeKV = l2.map shapeKV) :
    recordMatches m l1 = recordMatches m l2 := by
  have hact : (l1.filter (fun kv => !(isMetaFile kv.1))).map shapeKV
      = (l2.filter (fun kv => !(isMetaFile kv.1))).map shapeKV := by
    rw [map_filter_meta, map_filter_meta, hmap]
  simp only [recordMatches]
  rw [all_good_shape (m.getD defaultDirMeta).children _ _ hact]
  congr 1
  refine list_all_ext ?_ _
  intro kv
  rw [← alGet_shape_isSome (l1.filter (fun kv2 => !(isMetaFile kv2.1))) kv.1,
    ← alGet_shape_isSome (l2.filter (fun kv2 => !(isMetaFile kv2.1))) kv.1, hact]

theorem recordMatches_congr_children (x y : Option DirMeta)
    (l : List (FsName × Node))
    (h : (x.getD defaultDirMeta).children = (y.getD defaultDirMeta).children) :
    recordMatches x l = recordMatches y l := by
  simp only [recordMatches]
  rw [h]

theorem walkChildren_shape (now : Int) :
    ∀ cs : Children, ((walkFsckChildren now cs).1).toList.map shapeKV
      = cs.toList.map shapeKV
  | .nil => rfl
  | .cons name c rest => by
    cases c with
    | file b =>
      simp only [walkFsckChildren]
      by_cases hm : isMetaFile name = true
      · rw [if_pos hm]
        simp [Children.toList, walkChildren_shape now rest]
      · rw [if_neg hm]
        simp [Children.toList, walkChildren_shape now rest]
    | dir mm ccs =>
      simp only [walkFsckChildren]
      by_cases hm : isMetaFile name = true
      · rw [if_pos hm]
        simp [Children.toList, shapeKV, nodeShape, walkChildren_shape now rest]
      · rw [if_neg hm]
        simp only [walkFsck]
        simp [Children.toList, shapeKV, nodeShape, walkChildren_shape now rest]

mutual

theorem walkFsck_ok (now : Int) :
    ∀ n : Node, nodeWF n = true → fsckOk (walkFsck now n).1 = true
  | .file _, _ => rfl
  | .dir m cs, h => by
    have h2 : namesOk cs.toList = true ∧ nodeWFChildren cs = true := by
      simpa [nodeWF, Bool.and_eq_true] using h
    simp only [walkFsck, fsckOk, Bool.and_eq_true]
    constructor
    · rw [recordMatches_shape _ _ _ (walkChildren_shape now cs),
        namesOk_filter_id cs.toList h2.1]
      exact repair_matches now m cs.toList h2.1
    · exact walkChildren_ok now cs h2.1 h2.2

theorem walkChildren_ok (now : Int) :
    ∀ cs : Children, namesOk cs.toList = true → nodeWFChildren cs = true →
      fsckOkChildren (walkFsckChildren now cs).1 = true
  | .nil, _, _ => rfl
  | .cons name (.file b) rest, hnames, h => by
    have h2 : nodeWF (.file b) = true ∧ nodeWFChildren rest = true := by
      simpa [nodeWFChildren, Bool.and_eq_true] using h
    have hn0 : namesOk ((name, Node.file b) :: rest.toList) = true := hnames
    simp only [namesOk, Bool.and_eq_true] at hn0
    have hmf : isMetaFile name = false := by simpa using hn0.1.1
    simp only [walkFsckChildren, hmf, Bool.false_eq_true, if_false]
    simp only [fsckOkChildren, fsckOk, Bool.true_and]
    exact walkChildren_ok now rest hn0.2 h2.2
  | .cons name (.dir mm ccs) rest, hnames, h => by
    have h2 : nodeWF (.dir mm ccs) = true ∧ nodeWFChildren rest = true := by
      simpa [nodeWFChildren, Bool.and_eq_true] using h
    have hn0 : namesOk ((name, Node.dir mm ccs) :: rest.toList) = true := hnames
    simp only [namesOk, Bool.and_eq_true] at hn0
    have hmf : isMetaFile name = false := by simpa using hn0.1.1
    simp only [walkFsckChildren, hmf, Bool.false_eq_true, if_false]
    simp only [fsckOkChildren, Bool.and_eq_true]
    exact ⟨walkFsck_ok now (.dir mm ccs) h2.1,
      walkChildren_ok now rest hn0.2 h2.2⟩

end

/-- C4: starting from any backend-well-formed tree, after `fsck()` completes
every directory's sidecar record matches the real backend contents exactly:
every real entry (sidecar aside) is tracked, every tracked file's recorded
size equals its real size, and no stale record entry remains. -/
theorem C4_fsck_makes_records_match (now : Int) (s : Node)
    (h : nodeWF s = true) :
    fsckOk ((fsckRun now s).state) = true := by
  cases s with
  | file b => rfl
  | dir m cs =>
    have hw := walkFsck_ok now (.dir m cs) h
    simp only [fsckRun, RunRes.state]
    cases hr : (walkFsck now (.dir m cs)).1 with
    | file b2 => rfl
    | dir m2 cs2 =>
      rw [hr] at hw
      simp only [Node.withMeta, fsckOk, Bool.and_eq_true] at hw ⊢
      refine ⟨?_, hw.2⟩
      rw [recordMatches_congr_children
        (some { effMeta (Node.dir m2 cs2) with
          usage := some (walkUsage (Node.dir m2 cs2)) }) m2 cs2.toList rfl]
      exact hw.1

/-- Witness for C4: repairing a fresh backend tree holding one untracked
file yields matching records everywhere. -/
theorem C4_fsck_makes_records_match_witness :
    fsckOk ((fsckRun 7 (.dir none
      (.cons ['a'] (.file [1, 2, 3]) .nil))).state) = true :=
  C4_fsck_makes_records_match 7
    (.dir none (.cons ['a'] (.file [1, 2, 3]) .nil)) rfl

end OpfsExt
